import Mathlib

/-!
Cloudrift API server: Terraform job orchestration.

A shallow embedding of `server/main.go`: the output extractor (`extractJSON`),
the path sandbox (`safePath`), the trigger handler (`handleTerraformPlan`),
the pipeline (`runTerraformPipeline`), the poll handler and the registry sweep.

Go strings are byte sequences; they are modelled as lists of byte values.
-/

namespace Cloudrift

/-! ## Strings -/

/-- A Go string: a sequence of bytes, each byte given by its value. -/
abbrev GoString := List Nat

/-- The bytes of an ASCII literal. -/
def ascii (s : String) : GoString := s.toList.map Char.toNat

/-- Byte index of the first occurrence of the byte `c` in `s`, or `-1`
(`strings.Index` with a one-byte separator). -/
def indexByte (s : GoString) (c : Nat) : Int :=
  match s with
  | [] => -1
  | b :: rest =>
    if b = c then 0
    else
      let i := indexByte rest c
      if i = -1 then -1 else i + 1

/-- Byte index of the last occurrence of the byte `c` in `s`, or `-1`
(`strings.LastIndex` with a one-byte separator). -/
def lastIndexByte (s : GoString) (c : Nat) : Int :=
  match s with
  | [] => -1
  | b :: rest =>
    let i := lastIndexByte rest c
    if i = -1 then (if b = c then 0 else -1) else i + 1

/-- The slice expression `s[lo:hi]` for `0 ≤ lo ≤ hi ≤ len(s)`. -/
def slice (s : GoString) (lo hi : Int) : GoString :=
  (s.drop lo.toNat).take (hi.toNat - lo.toNat)

/-- The byte `{`. -/
def lbrace : Nat := 123

/-- The byte `}`. -/
def rbrace : Nat := 125

/-- The helper `extractJSON` of `main.go`. -/
def extractJSON (output : GoString) : GoString :=
  let start := indexByte output lbrace
  if start = -1 then []
  else
    let stop := lastIndexByte output rbrace
    if stop = -1 ∨ stop ≤ start then []
    else slice output start (stop + 1)

/-- The byte `c` occurs in `s` at index `i` and nowhere before. -/
def IsFirstAt (s : GoString) (c i : Nat) : Prop :=
  s[i]? = some c ∧ ∀ k, k < i → s[k]? ≠ some c

/-- The byte `c` occurs in `s` at index `j` and nowhere after. -/
def IsLastAt (s : GoString) (c j : Nat) : Prop :=
  s[j]? = some c ∧ ∀ k, j < k → s[k]? ≠ some c

/-! ## Standard-library string and path helpers -/

/-- The test `strings.HasPrefix(s, pre)`. -/
def startsWith (s pre : GoString) : Bool := pre.isPrefixOf s

/-- The test `strings.HasSuffix(s, suf)`. -/
def endsWith (s suf : GoString) : Bool := suf.reverse.isPrefixOf s.reverse

/-- The pieces of `s` between occurrences of the byte `c`
(`strings.Split` with a one-byte separator). -/
def splitByte (c : Nat) : GoString → List GoString
  | [] => [[]]
  | b :: rest =>
    if b = c then [] :: splitByte c rest
    else
      match splitByte c rest with
      | [] => [[b]]
      | x :: xs => (b :: x) :: xs

/-- The byte `/`, the Unix path separator. -/
def slash : Nat := 47

/-- The path element `.`. -/
def dot : GoString := [46]

/-- The path element `..`. -/
def dotdot : GoString := [46, 46]

/-- Whether `filepath.Clean` can backtrack over the last element written:
the output holds an element that is not part of a leading `../..` run. -/
def canBacktrack (out : List GoString) : Bool :=
  match out with
  | [] => false
  | top :: _ => top != dotdot

/-- The element loop of `filepath.Clean`: `out` is the stack of elements
written so far (last written first), the second list the elements still to read. -/
def cleanElems (rooted : Bool) (out : List GoString) : List GoString → List GoString
  | [] => out.reverse
  | e :: es =>
    if e = [] ∨ e = dot then cleanElems rooted out es
    else if e = dotdot then
      if canBacktrack out then cleanElems rooted out.tail es
      else if rooted then cleanElems rooted out es
      else cleanElems rooted (dotdot :: out) es
    else cleanElems rooted (e :: out) es

/-- The test `filepath.IsAbs` on Unix. -/
def isAbs (path : GoString) : Bool := startsWith path [slash]

/-- The function `filepath.Clean` on Unix: the shortest equivalent path, by
dropping empty and `.` elements, resolving inner `..` elements, dropping `..`
at the root, and writing `.` for an empty result. -/
def clean (path : GoString) : GoString :=
  if path = [] then dot
  else
    let rooted := isAbs path
    let body := [slash].intercalate (cleanElems rooted [] (splitByte slash path))
    if rooted then slash :: body
    else if body = [] then dot
    else body

/-- The function `filepath.Join` with two elements: empty elements are ignored
and the result is cleaned; all elements empty gives the empty string. -/
def join (a b : GoString) : GoString :=
  if a ≠ [] then clean (a ++ slash :: b)
  else if b ≠ [] then clean b
  else []

/-- The function `filepath.Abs` with its error dropped, as `safePath` calls
it: `cwd` is the result of `os.Getwd`, `none` when that fails. -/
def absPath (cwd : Option GoString) (path : GoString) : GoString :=
  if isAbs path then clean path
  else
    match cwd with
    | none => []
    | some d => join d path

/-- The function `workDir` of `main.go`; `envWorkDir` is the value of the
environment variable `CLOUDRIFT_WORK_DIR` (empty when unset). -/
def workDir (envWorkDir : GoString) : GoString :=
  if envWorkDir ≠ [] then envWorkDir else []

/-- Equality of results `(string, error)` is decidable. -/
instance instDecidableEqResult : DecidableEq (Except GoString GoString)
  | .ok a, .ok b =>
    if h : a = b then isTrue (by rw [h]) else isFalse (fun e => h (by cases e; rfl))
  | .error a, .error b =>
    if h : a = b then isTrue (by rw [h]) else isFalse (fun e => h (by cases e; rfl))
  | .ok _, .error _ => isFalse (fun e => by cases e)
  | .error _, .ok _ => isFalse (fun e => by cases e)

/-- The function `safePath` of `main.go`; the error carries its message. -/
def safePath (envWorkDir : GoString) (cwd : Option GoString) (relPath : GoString) :
    Except GoString GoString :=
  let wd0 := workDir envWorkDir
  let wd := if wd0 = [] then dot else wd0
  let cleaned := clean relPath
  if isAbs cleaned then
    .error (ascii "absolute paths not allowed: " ++ relPath)
  else
    let full := join wd cleaned
    let absWd := absPath cwd wd
    let absFull := absPath cwd full
    if ¬ startsWith absFull absWd then
      .error (ascii "path escapes working directory: " ++ relPath)
    else .ok full

/-- The elements of a cleaned path: the non-empty pieces between separators. -/
def pathElems (path : GoString) : List GoString :=
  (splitByte slash path).filter (fun e => e ≠ [])

/-- The location `path` is the directory `root` itself or lies inside it: the
elements of `root` are the leading elements of `path`. -/
def withinRoot (root path : GoString) : Bool :=
  (pathElems root).isPrefixOf (pathElems path)

/-! ## Time and number formatting -/

/-- An instant (`time.Time`), counted in nanoseconds from the zero time
(January 1 of year 1, 00:00 UTC); wall-clock and monotonic readings are
taken to agree. -/
abbrev Time := Int

/-- The test `t.IsZero()`. -/
def isZero (t : Time) : Bool := t == 0

/-- The test `t.Before(u)`. -/
def before (t u : Time) : Bool := decide (t < u)

/-- One hour (`time.Hour`), in nanoseconds. -/
def hour : Int := 3600 * 1000000000

/-- Nanoseconds from the zero time to the Unix epoch (January 1, 1970). -/
def unixEpoch : Int := 62135596800 * 1000000000

/-- The reading `t.UnixMilli()`: whole milliseconds since the Unix epoch,
rounded down. -/
def unixMilli (t : Time) : Int := (t - unixEpoch) / 1000000

/-- The digit loop of `strconv.FormatInt` in base 10: the decimal digits of `n`
written in front of `acc`; `fuel` bounds the number of digits. -/
def natDigits : Nat → Nat → GoString → GoString
  | 0, _, acc => acc
  | fuel + 1, n, acc =>
    if n < 10 then (48 + n) :: acc
    else natDigits fuel (n / 10) ((48 + n % 10) :: acc)

/-- Decimal text of a natural number. -/
def formatNat (n : Nat) : GoString := natDigits (n + 1) n []

/-- Decimal text of an integer, as the verb `%d` writes it. -/
def formatInt (i : Int) : GoString :=
  if i < 0 then 45 :: formatNat i.natAbs else formatNat i.natAbs

/-- The number a decimal digit string stands for. -/
def parseNat (s : GoString) : Nat := s.foldl (fun a d => 10 * a + (d - 48)) 0

/-- The number a decimal string with an optional leading `-` stands for. -/
def parseInt (s : GoString) : Int :=
  match s with
  | [] => 0
  | d :: rest => if d = 45 then -(parseNat rest : Int) else (parseNat (d :: rest) : Int)

/-! ## Companion configuration update -/

/-- The UTF-8 encodings of the white-space code points of `unicode.IsSpace`. -/
def spaceRunes : List GoString :=
  [[9], [10], [11], [12], [13], [32], [0xC2, 0x85], [0xC2, 0xA0], [0xE1, 0x9A, 0x80],
   [0xE2, 0x80, 0x80], [0xE2, 0x80, 0x81], [0xE2, 0x80, 0x82], [0xE2, 0x80, 0x83],
   [0xE2, 0x80, 0x84], [0xE2, 0x80, 0x85], [0xE2, 0x80, 0x86], [0xE2, 0x80, 0x87],
   [0xE2, 0x80, 0x88], [0xE2, 0x80, 0x89], [0xE2, 0x80, 0x8A], [0xE2, 0x80, 0xA8],
   [0xE2, 0x80, 0xA9], [0xE2, 0x80, 0xAF], [0xE2, 0x81, 0x9F], [0xE3, 0x80, 0x80]]

/-- Drop leading white-space runes, at most `fuel` of them. -/
def trimLeftFuel : Nat → GoString → GoString
  | 0, s => s
  | fuel + 1, s =>
    match spaceRunes.find? (fun r => startsWith s r) with
    | some r => trimLeftFuel fuel (s.drop r.length)
    | none => s

/-- Drop trailing white-space runes, at most `fuel` of them. -/
def trimRightFuel : Nat → GoString → GoString
  | 0, s => s
  | fuel + 1, s =>
    match spaceRunes.find? (fun r => endsWith s r) with
    | some r => trimRightFuel fuel (s.take (s.length - r.length))
    | none => s

/-- The function `strings.TrimSpace`. -/
def trimSpace (s : GoString) : GoString :=
  trimRightFuel s.length (trimLeftFuel s.length s)

/-- The loop over the configuration lines: the first line that, trimmed,
starts with `plan_path:` is replaced by `newLine`; the flag is `updated`. -/
def replacePlanPath (newLine : GoString) : List GoString → List GoString × Bool
  | [] => ([], false)
  | line :: rest =>
    if startsWith (trimSpace line) (ascii "plan_path:") then (newLine :: rest, true)
    else ((replacePlanPath newLine rest).1.cons line, (replacePlanPath newLine rest).2)

/-- The text written back to the configuration document: split on newlines,
replace or append the `plan_path:` line, join with newlines. -/
def updateConfig (newLine configData : GoString) : GoString :=
  let lines := splitByte 10 configData
  let r := replacePlanPath newLine lines
  let lines2 := if r.2 then r.1 else r.1 ++ [newLine]
  [10].intercalate lines2

/-! ## Terraform jobs and the pipeline -/

/-- The record `TerraformJob` of `main.go`. -/
structure TerraformJob where
  ID : GoString
  Status : GoString
  Phase : GoString
  Output : GoString
  PlanPath : GoString
  Error : GoString
  StartedAt : Time
  DoneAt : Time
deriving DecidableEq, Repr

/-- A status is terminal: `completed` or `error`. -/
def isTerminal (status : GoString) : Bool :=
  status == ascii "completed" || status == ascii "error"

/-- One effect of `runTerraformPipeline` on shared state: an assignment to a
field of its job record, a file written or removed, or the release of the gate. -/
inductive Action where
  | setStatus (v : GoString)
  | setPhase (v : GoString)
  | setOutput (v : GoString)
  | setError (v : GoString)
  | setPlanPath (v : GoString)
  | setDoneAt (t : Time)
  | writeFile (path data : GoString)
  | removeFile (path : GoString)
  | unlock
deriving DecidableEq, Repr

/-- The effect of one action on the job record of the pipeline. -/
def Action.apply (a : Action) (job : TerraformJob) : TerraformJob :=
  match a with
  | .setStatus v => { job with Status := v }
  | .setPhase v => { job with Phase := v }
  | .setOutput v => { job with Output := v }
  | .setError v => { job with Error := v }
  | .setPlanPath v => { job with PlanPath := v }
  | .setDoneAt t => { job with DoneAt := t }
  | .writeFile _ _ => job
  | .removeFile _ => job
  | .unlock => job

/-- What the environment answers during one run of the pipeline. -/
structure PipelineEnv where
  /-- Value of `CLOUDRIFT_WORK_DIR` when `safePath` reads it. -/
  envWorkDir : GoString
  /-- Result of `os.Getwd`, `none` when it fails. -/
  cwd : Option GoString
  /-- Combined output of `terraform init`. -/
  initOutput : GoString
  /-- Error of `terraform init` (its message), `none` on success. -/
  initErr : Option GoString
  /-- Combined output of `terraform plan`. -/
  planOutput : GoString
  /-- Error of `terraform plan`, `none` on success. -/
  planErr : Option GoString
  /-- Combined output of `terraform show -json`. -/
  showOutput : GoString
  /-- Error of `terraform show`, `none` on success. -/
  showErr : Option GoString
  /-- Result of `json.Valid(showOutput)`. -/
  jsonValid : Bool
  /-- Error of writing the plan artifact, `none` on success. -/
  writeErr : Option GoString
  /-- Content of the configuration document, `none` when it cannot be read. -/
  configData : Option GoString
  /-- Reading of `time.Now()` when `DoneAt` is stamped. -/
  doneNow : Time
deriving DecidableEq, Repr

/-- Step 5 of the pipeline: the best-effort update of `config/cloudrift.yml`. -/
def updateConfigActions (env : PipelineEnv) : List Action :=
  match safePath env.envWorkDir env.cwd (ascii "config/cloudrift.yml") with
  | .error _ => []
  | .ok fullConfigPath =>
    match env.configData with
    | none => []
    | some configData =>
      [.writeFile fullConfigPath
        (updateConfig (ascii "plan_path: ./examples/terraform-plan.json") configData)]

/-- Steps 4 and 5 and the completion of the pipeline, after a valid `show`. -/
def savePlanActions (tfDir : GoString) (env : PipelineEnv) : List Action :=
  let planJsonPath := ascii "examples/terraform-plan.json"
  match safePath env.envWorkDir env.cwd planJsonPath with
  | .error pathErr =>
    [.setStatus (ascii "error"), .setError (ascii "Path error: " ++ pathErr),
     .setDoneAt env.doneNow]
  | .ok fullPlanPath =>
    match env.writeErr with
    | some err =>
      [.setStatus (ascii "error"), .setError (ascii "Failed to save plan JSON: " ++ err),
       .setDoneAt env.doneNow]
    | none =>
      [.writeFile fullPlanPath env.showOutput] ++ updateConfigActions env ++
      [.setStatus (ascii "completed"), .setPhase (ascii "Plan generated successfully"),
       .setPlanPath planJsonPath, .setDoneAt env.doneNow,
       .removeFile (join tfDir (ascii "tfplan.binary"))]

/-- Step 3 of the pipeline: `terraform show -json` and what follows it. -/
def showActions (tfDir : GoString) (env : PipelineEnv) : List Action :=
  [.setStatus (ascii "show"), .setPhase (ascii "Converting plan to JSON...")] ++
  match env.showErr with
  | some showErr =>
    [.setStatus (ascii "error"), .setError (ascii "terraform show failed: " ++ showErr),
     .setPhase (ascii "Show failed"), .setDoneAt env.doneNow]
  | none =>
    if ¬ env.jsonValid then
      [.setStatus (ascii "error"), .setError (ascii "terraform show produced invalid JSON"),
       .setPhase (ascii "Invalid output"), .setDoneAt env.doneNow]
    else savePlanActions tfDir env

/-- Step 2 of the pipeline: `terraform plan` and what follows it; `buf` is
the content of the output buffer so far. -/
def planActions (tfDir : GoString) (env : PipelineEnv) (buf : GoString) : List Action :=
  let buf2 := buf ++ env.planOutput ++ [10]
  [.setStatus (ascii "plan"), .setPhase (ascii "Running terraform plan..."),
   .setOutput buf2] ++
  match env.planErr with
  | some planErr =>
    [.setStatus (ascii "error"), .setError (ascii "terraform plan failed: " ++ planErr),
     .setPhase (ascii "Plan failed"), .setDoneAt env.doneNow]
  | none => showActions tfDir env

/-- The body of `runTerraformPipeline`, from step 1 to its `return`. -/
def pipelineBody (tfDir : GoString) (env : PipelineEnv) : List Action :=
  let buf1 := env.initOutput ++ [10]
  [.setStatus (ascii "init"), .setPhase (ascii "Running terraform init..."),
   .setOutput buf1] ++
  match env.initErr with
  | some initErr =>
    [.setStatus (ascii "error"), .setError (ascii "terraform init failed: " ++ initErr),
     .setPhase (ascii "Init failed"), .setDoneAt env.doneNow]
  | none => planActions tfDir env buf1

/-- The function `runTerraformPipeline` of `main.go`, as the sequence of its
effects in program order; the deferred `tfMutex.Unlock()` runs last on every
return path. -/
def runTerraformPipeline (tfDir : GoString) (env : PipelineEnv) : List Action :=
  pipelineBody tfDir env ++ [.unlock]

/-- The values an action sequence assigns to `Status`, in order. -/
def statusWrites : List Action → List GoString
  | [] => []
  | .setStatus v :: rest => v :: statusWrites rest
  | _ :: rest => statusWrites rest

/-- The states of a job record while an action sequence runs: the record
before the first action and after each action. -/
def jobTrace (job : TerraformJob) : List Action → List TerraformJob
  | [] => [job]
  | a :: rest => job :: jobTrace (a.apply job) rest

/-- The job record after all actions of a sequence. -/
def jobAfter (job : TerraformJob) (actions : List Action) : TerraformJob :=
  actions.foldl (fun j a => a.apply j) job

/-! ## Server state, handlers and the sweep -/

/-- A launched `runTerraformPipeline`: the job record it owns (a pointer into
the heap) and the effects it has still to perform. -/
structure Goroutine where
  job : Nat
  todo : List Action
deriving DecidableEq, Repr

/-- The shared state of the server: the gate `tfMutex` (`true` when locked),
the allocated job records (a pointer is an index into `heap`), the registry
`tfJobs` from job id to pointer, and the launched pipelines. -/
structure ServerState where
  tfMutex : Bool
  heap : List TerraformJob
  tfJobs : List (GoString × Nat)
  running : List Goroutine
deriving DecidableEq, Repr

/-- The state at process start: gate free, registry empty. -/
def ServerState.init : ServerState :=
  { tfMutex := false, heap := [], tfJobs := [], running := [] }

/-- The call `tfMutex.TryLock()`: `none` when the gate is held. -/
def tryLock (s : ServerState) : Option ServerState :=
  if s.tfMutex then none else some { s with tfMutex := true }

/-- The call `tfMutex.Unlock()`. -/
def unlock (s : ServerState) : ServerState := { s with tfMutex := false }

/-- The map assignment `tfJobs[id] = ptr`. -/
def mapInsert (m : List (GoString × Nat)) (id : GoString) (ptr : Nat) : List (GoString × Nat) :=
  m.filter (fun e => e.1 ≠ id) ++ [(id, ptr)]

/-- The map read `tfJobs[id]`. -/
def mapLookup (m : List (GoString × Nat)) (id : GoString) : Option Nat :=
  (m.find? (fun e => e.1 = id)).map Prod.snd

/-- A response written by a handler. -/
inductive Response where
  /-- Plain-text error of `http.Error`. -/
  | text (code : Nat) (msg : GoString)
  /-- Response of `jsonError`: status `code`, body `{"error": msg}`. -/
  | jsonError (msg : GoString) (code : Nat)
  /-- Status 200 with a JSON object of string fields. -/
  | json (fields : List (GoString × GoString))
  /-- Status 200 with the poll document of a job. -/
  | jobStatus (id status phase error planPath : GoString) (elapsed : Int) (output : GoString)
deriving DecidableEq, Repr

/-- What the environment answers during one trigger request. -/
structure TriggerEnv where
  /-- The request method. -/
  method : GoString
  /-- Value of `CLOUDRIFT_WORK_DIR`. -/
  envWorkDir : GoString
  /-- Names of the entries of the terraform directory, `none` when
  `os.ReadDir` fails. -/
  readDir : Option (List GoString)
  /-- Reading of `time.Now()` for the job id. -/
  idNow : Time
  /-- Reading of `time.Now()` for `StartedAt`. -/
  startNow : Time
  /-- Answers given to the pipeline this request launches. -/
  pipeline : PipelineEnv
deriving DecidableEq, Repr

/-- The job id minted by `handleTerraformPlan`: `fmt.Sprintf("tf-%d", ms)`. -/
def jobID (ms : Int) : GoString := ascii "tf-" ++ formatInt ms

/-- The record built by `handleTerraformPlan` for a new job. -/
def newJob (id : GoString) (startNow : Time) : TerraformJob :=
  { ID := id, Status := ascii "pending", Phase := ascii "Starting...",
    Output := [], PlanPath := [], Error := [],
    StartedAt := startNow, DoneAt := 0 }

/-- The tail of `handleTerraformPlan` once the gate is taken (state `s1`) and
the preconditions hold: mint the id, allocate and register the job, launch
the pipeline. -/
def registerAndLaunch (env : TriggerEnv) (s1 : ServerState) : ServerState :=
  let tfDir := join (workDir env.envWorkDir) (ascii "terraform")
  let id := jobID (unixMilli env.idNow)
  let ptr := s1.heap.length
  { s1 with
    heap := s1.heap ++ [newJob id env.startNow]
    tfJobs := mapInsert s1.tfJobs id ptr
    running := s1.running ++ [⟨ptr, runTerraformPipeline tfDir env.pipeline⟩] }

/-- The handler `handleTerraformPlan` of `main.go`: the response and the state
it leaves. -/
def handleTerraformPlan (env : TriggerEnv) (s : ServerState) : Response × ServerState :=
  if env.method ≠ ascii "POST" then
    (.text 405 (ascii "Method not allowed"), s)
  else
    match tryLock s with
    | none => (.jsonError (ascii "Another Terraform operation is already running") 409, s)
    | some s1 =>
      match env.readDir with
      | none =>
        (.jsonError (ascii "Terraform directory not found. Upload .tf files first.") 400,
          unlock s1)
      | some entries =>
        let hasTf := entries.any (fun e => endsWith e (ascii ".tf"))
        if ¬ hasTf then
          (.jsonError (ascii "No .tf files found. Upload Terraform files first.") 400,
            unlock s1)
        else
          (.json [(ascii "status", ascii "started"),
              (ascii "job_id", jobID (unixMilli env.idNow))],
            registerAndLaunch env s1)

/-- The effect of one pipeline action on the server state, for the pipeline
owning the job record at `ptr`. -/
def applyAction (a : Action) (ptr : Nat) (s : ServerState) : ServerState :=
  match a with
  | .unlock => unlock s
  | _ =>
    match s.heap[ptr]? with
    | some job => { s with heap := s.heap.set ptr (a.apply job) }
    | none => s

/-- The launched pipeline number `i` performs its next effect. -/
def pipelineStep (i : Nat) (s : ServerState) : ServerState :=
  match s.running[i]? with
  | none => s
  | some g =>
    match g.todo with
    | [] => s
    | a :: rest =>
      let s1 := applyAction a g.job s
      { s1 with running := s1.running.set i ⟨g.job, rest⟩ }

/-- Whole seconds of a duration in nanoseconds, as `int(d.Seconds())`
truncates it; the passage through `float64` is taken as exact. -/
def wholeSeconds (d : Int) : Int := Int.tdiv d 1000000000

/-- The handler `handleTerraformJob` of `main.go` (the poll); it reads the
state and changes nothing. -/
def handleTerraformJob (method id : GoString) (now : Time) (s : ServerState) : Response :=
  if method ≠ ascii "GET" then .text 405 (ascii "Method not allowed")
  else if id = [] then .jsonError (ascii "job id is required") 400
  else
    match (mapLookup s.tfJobs id).bind (fun ptr => s.heap[ptr]?) with
    | none => .jsonError (ascii "Job not found: " ++ id) 404
    | some job =>
      let elapsed :=
        if ¬ isZero job.DoneAt then job.DoneAt - job.StartedAt else now - job.StartedAt
      .jobStatus job.ID job.Status job.Phase job.Error job.PlanPath (wholeSeconds elapsed)
        job.Output

/-- Whether the sweep deletes the registry entry of this job: `DoneAt` is set
and lies before the cutoff. -/
def sweepDeletes (cutoff : Time) (job : TerraformJob) : Bool :=
  !isZero job.DoneAt && before job.DoneAt cutoff

/-- One pass of the background sweep of `main`, at clock reading `now`. -/
def sweep (now : Time) (s : ServerState) : ServerState :=
  let cutoff := now + (-1) * hour
  { s with tfJobs := s.tfJobs.filter (fun e =>
      match s.heap[e.2]? with
      | some job => !sweepDeletes cutoff job
      | none => true) }

/-- The events that change or observe the server state. -/
inductive Event where
  | trigger (env : TriggerEnv)
  | pipeline (i : Nat)
  | poll (method id : GoString) (now : Time)
  | sweep (now : Time)
deriving DecidableEq, Repr

/-- The state after one event. -/
def step (e : Event) (s : ServerState) : ServerState :=
  match e with
  | .trigger env => (handleTerraformPlan env s).2
  | .pipeline i => pipelineStep i s
  | .poll _ _ _ => s
  | .sweep now => sweep now s

/-- The state after a sequence of events. -/
def runEvents (es : List Event) (s : ServerState) : ServerState :=
  es.foldl (fun st e => step e st) s

/-- The states reachable from the initial state. -/
inductive Reachable : ServerState → Prop where
  | init : Reachable ServerState.init
  | step (e : Event) (s : ServerState) : Reachable s → Reachable (step e s)

/-- The job records the registry holds. -/
def registryJobs (s : ServerState) : List TerraformJob :=
  s.tfJobs.filterMap (fun e => s.heap[e.2]?)

/-- The number of registry jobs whose status is not terminal. -/
def activeCount (s : ServerState) : Nat :=
  ((registryJobs s).filter (fun job => !isTerminal job.Status)).length

/-- The HTTP status code of a response. -/
def Response.code : Response → Nat
  | .text code _ => code
  | .jsonError _ code => code
  | .json _ => 200
  | .jobStatus _ _ _ _ _ _ _ => 200

/-- The preconditions of a trigger request are unmet: the terraform directory
cannot be read, or none of its entries ends in `.tf`. -/
def preconditionsUnmet (env : TriggerEnv) : Prop :=
  env.readDir = none ∨
    ∃ entries, env.readDir = some entries ∧ ∀ e ∈ entries, endsWith e (ascii ".tf") = false

/-- The preconditions of a trigger request are met: the terraform directory
can be read and has an entry ending in `.tf`. -/
def preconditionsMet (env : TriggerEnv) : Prop :=
  ∃ entries, env.readDir = some entries ∧ ∃ e ∈ entries, endsWith e (ascii ".tf") = true

/-- Sample answers to a pipeline run in which `terraform init` fails. -/
def sampleInitFails : PipelineEnv :=
  { envWorkDir := ascii "/srv/work", cwd := some (ascii "/app"),
    initOutput := ascii "Initializing...", initErr := some (ascii "exit status 1"),
    planOutput := [], planErr := none, showOutput := [], showErr := none,
    jsonValid := false, writeErr := none, configData := none,
    doneNow := unixEpoch + 1700000000456 * 1000000 }

/-- Sample answers to a pipeline run in which every stage succeeds. -/
def sampleAllSucceed : PipelineEnv :=
  { envWorkDir := ascii "/srv/work", cwd := some (ascii "/app"),
    initOutput := ascii "Initialized", initErr := none,
    planOutput := ascii "Plan: 1 to add", planErr := none,
    showOutput := ascii "\x7b\x7d", showErr := none,
    jsonValid := true, writeErr := none, configData := some (ascii "region: us-east-1\n"),
    doneNow := unixEpoch + 1700000009000 * 1000000 }

/-- A sample trigger request that meets the preconditions, received at Unix
millisecond `1700000000123`. -/
def sampleTrigger (pipeline : PipelineEnv) : TriggerEnv :=
  { method := ascii "POST", envWorkDir := ascii "/srv/work",
    readDir := some [ascii "main.tf"],
    idNow := unixEpoch + 1700000000123 * 1000000,
    startNow := unixEpoch + 1700000000123 * 1000000 + 5,
    pipeline := pipeline }

/-- A sample trigger request whose terraform directory cannot be read. -/
def sampleNoDir : TriggerEnv :=
  { sampleTrigger sampleInitFails with readDir := none }

/-- A sample trigger request whose terraform directory holds no `.tf` entry. -/
def sampleNoTf : TriggerEnv :=
  { sampleTrigger sampleInitFails with readDir := some [ascii "README.md"] }

/-- The state while the pipeline of a first accepted trigger holds the gate. -/
def sampleHeld : ServerState :=
  (handleTerraformPlan (sampleTrigger sampleInitFails) ServerState.init).2

/-- The launched pipeline number `k` performs its next `n` effects. -/
def pipelineSteps (k : Nat) : Nat → ServerState → ServerState
  | 0, s => s
  | n + 1, s => pipelineSteps k n (pipelineStep k s)

/-- The response to an accepted trigger request. -/
def startedResponse (env : TriggerEnv) : Response :=
  .json [(ascii "status", ascii "started"), (ascii "job_id", jobID (unixMilli env.idNow))]

/-- The directory handed to the pipeline by `handleTerraformPlan`. -/
def tfDirOf (env : TriggerEnv) : GoString := join (workDir env.envWorkDir) (ascii "terraform")

/-- Every launched pipeline has returned. -/
def allReturned (s : ServerState) : Prop :=
  ∀ (i : Nat) (g : Goroutine), s.running[i]? = some g → g.todo = []

/-- The artifact cannot be saved: `safePath` rejects the artifact path or
writing the file fails. -/
def saveFails (env : PipelineEnv) : Bool :=
  match safePath env.envWorkDir env.cwd (ascii "examples/terraform-plan.json") with
  | .error _ => true
  | .ok _ => env.writeErr.isSome

/-- The action does not assign `DoneAt`. -/
def Action.keepsDoneAt : Action → Bool
  | .setDoneAt _ => false
  | _ => true

/-- The action does not assign `Status`. -/
def Action.keepsStatus : Action → Bool
  | .setStatus _ => false
  | _ => true

/-- A stage of the pipeline, started on a record whose `DoneAt` is zero, stamps
`DoneAt` only on a terminal status and ends stamped and terminal. -/
def StampsLast (actions : List Action) : Prop :=
  ∀ j : TerraformJob, j.DoneAt = 0 →
    (∀ job ∈ jobTrace j actions, job.DoneAt ≠ 0 → isTerminal job.Status = true) ∧
    (jobAfter j actions).DoneAt ≠ 0 ∧ isTerminal (jobAfter j actions).Status = true

/-- The sequence of values `Status` takes in a pipeline run that ends as the
answers of the environment dictate: `init` fails, `plan` fails, the `show`
stage fails (the command, its JSON, or saving the artifact), or all succeed. -/
def expectedStatuses (env : PipelineEnv) : List GoString :=
  if env.initErr.isSome then [ascii "pending", ascii "init", ascii "error"]
  else if env.planErr.isSome then [ascii "pending", ascii "init", ascii "plan", ascii "error"]
  else if env.showErr.isSome || !env.jsonValid || saveFails env then
    [ascii "pending", ascii "init", ascii "plan", ascii "show", ascii "error"]
  else [ascii "pending", ascii "init", ascii "plan", ascii "show", ascii "completed"]

/-- The state in which the first pipeline (its `terraform init` failed) has
assigned the status `error` and not yet stamped `DoneAt`. -/
def sampleUnstamped : ServerState := pipelineSteps 0 4 sampleHeld

/-- The state after the first pipeline has returned. -/
def sampleReturned : ServerState := pipelineSteps 0 8 sampleHeld

/-- A clock reading more than an hour after the sample requests. -/
def sampleLater : Time := unixEpoch + 1700003700000 * 1000000

/-! ## Invariant of the reachable states -/

/-- The status a job has after the remaining actions, starting from `status`. -/
def finalStatus : GoString → List Action → GoString
  | status, [] => status
  | _, .setStatus v :: rest => finalStatus v rest
  | status, _ :: rest => finalStatus status rest

/-- The remaining actions release the gate exactly once, as their last action. -/
def unlockLast : List Action → Bool
  | [] => true
  | a :: rest =>
    match rest with
    | [] => a == Action.unlock
    | _ :: _ => a != Action.unlock && unlockLast rest

/-- The invariant of the server state: registry pointers are distinct and
allocated; at most one launched pipeline has actions left; such a pipeline
holds the gate, releases it as its last action and leaves its job terminal;
every job that is not terminal belongs to a pipeline with actions left; a
held gate is held by a pipeline with actions left. -/
structure Inv (s : ServerState) : Prop where
  nodup : (s.tfJobs.map Prod.snd).Nodup
  alloc : ∀ e ∈ s.tfJobs, e.2 < s.heap.length
  single : ∀ (i j : Nat) (gi gj : Goroutine), s.running[i]? = some gi → s.running[j]? = some gj →
    gi.todo ≠ [] → gj.todo ≠ [] → i = j
  owner : ∀ (i : Nat) (g : Goroutine), s.running[i]? = some g → g.todo ≠ [] →
    s.tfMutex = true ∧ unlockLast g.todo = true ∧ g.job < s.heap.length ∧
      ∀ job : TerraformJob, s.heap[g.job]? = some job → isTerminal (finalStatus job.Status g.todo) = true
  owned : ∀ (p : Nat) (job : TerraformJob), s.heap[p]? = some job →
    isTerminal job.Status = false →
    ∃ (i : Nat) (g : Goroutine), s.running[i]? = some g ∧ g.job = p ∧ g.todo ≠ []
  held : s.tfMutex = true →
    ∃ (i : Nat) (g : Goroutine), s.running[i]? = some g ∧ g.todo ≠ []

/-! ## Output log, path elements and configuration lines -/

/-- The values an action sequence assigns to `Output`, in order. -/
def outputWrites : List Action → List GoString
  | [] => []
  | .setOutput v :: rest => v :: outputWrites rest
  | _ :: rest => outputWrites rest

/-- The output after the remaining actions, starting from `output`. -/
def finalOutput : GoString → List Action → GoString
  | output, [] => output
  | _, .setOutput v :: rest => finalOutput v rest
  | output, _ :: rest => finalOutput output rest

/-- The values `Output` takes in a pipeline run: empty at creation, the init
output and a newline after init, and, when init succeeded, that followed by
the plan output and a newline after plan. -/
def expectedOutputs (env : PipelineEnv) : List GoString :=
  if env.initErr.isSome then [[], env.initOutput ++ [10]]
  else [[], env.initOutput ++ [10], env.initOutput ++ [10] ++ env.planOutput ++ [10]]

/-- The line the pipeline writes into the configuration document. -/
def planPathLine : GoString := ascii "plan_path: ./examples/terraform-plan.json"

/-- The test of the update loop: the line, trimmed of surrounding white space,
starts with `plan_path:`. -/
def isPlanPathLine (line : GoString) : Bool :=
  startsWith (trimSpace line) (ascii "plan_path:")

/-- A path element that `filepath.Clean` copies to its output: not empty,
not `.` and not `..`. -/
def isNormalElem (e : GoString) : Prop := e ≠ [] ∧ e ≠ dot ∧ e ≠ dotdot

/-- The path has no `..` element. -/
def noDotDot (path : GoString) : Prop := dotdot ∉ splitByte slash path

/-- The root `safePath` resolves against: the work directory, or `.` when
none is configured. -/
def sandboxRoot (envWorkDir : GoString) : GoString :=
  if workDir envWorkDir = [] then dot else workDir envWorkDir

/-! ## Evaluation of the library models -/

/-- The model of `filepath.Clean` and `filepath.Join` on sample paths. -/
theorem clean_samples :
    clean (ascii "a//b/./c/..") = ascii "a/b" ∧
    clean (ascii "/../a/../..") = ascii "/" ∧
    clean (ascii "../../a/..") = ascii "../.." ∧
    clean (ascii "a/../..") = ascii ".." ∧
    clean (ascii "") = ascii "." ∧
    clean (ascii "./") = ascii "." ∧
    join (ascii "/srv/work") (ascii "a/b.json") = ascii "/srv/work/a/b.json" ∧
    join (ascii "") (ascii "terraform") = ascii "terraform" := by
  decide

/-- The model of `%d` on sample numbers. -/
theorem formatInt_samples :
    formatInt 1700000000123 = ascii "1700000000123" ∧
    formatInt (-42) = ascii "-42" ∧
    formatInt 0 = ascii "0" := by
  decide

/-- The model of `strings.TrimSpace` and of the configuration update on
sample texts. -/
theorem updateConfig_samples :
    trimSpace (ascii "  \t plan_path: x \r") = ascii "plan_path: x" ∧
    updateConfig (ascii "plan_path: new") (ascii "a: 1\n  plan_path: old\nb: 2\n")
      = ascii "a: 1\nplan_path: new\nb: 2\n" ∧
    updateConfig (ascii "plan_path: new") (ascii "a: 1\n")
      = ascii "a: 1\n\nplan_path: new" := by
  decide

/-! ## Output extractor: proofs -/

theorem indexByte_of_not_mem (s : GoString) (c : Nat) (h : c ∉ s) : indexByte s c = -1 := by
  induction s with
  | nil => rfl
  | cons b rest ih =>
    have hb : b ≠ c := fun e => h (by simp [e])
    have hr : c ∉ rest := fun e => h (by simp [e])
    simp [indexByte, hb, ih hr]

theorem lastIndexByte_of_not_mem (s : GoString) (c : Nat) (h : c ∉ s) :
    lastIndexByte s c = -1 := by
  induction s with
  | nil => rfl
  | cons b rest ih =>
    have hb : b ≠ c := fun e => h (by simp [e])
    have hr : c ∉ rest := fun e => h (by simp [e])
    simp [lastIndexByte, hb, ih hr]

theorem indexByte_of_isFirstAt (s : GoString) (c i : Nat) (h : IsFirstAt s c i) :
    indexByte s c = (i : Int) := by
  induction s generalizing i with
  | nil => simp [IsFirstAt] at h
  | cons b rest ih =>
    cases i with
    | zero =>
      have hb : b = c := by simpa [IsFirstAt] using h.1
      simp [indexByte, hb]
    | succ k =>
      have hb : b ≠ c := by
        have := h.2 0 (Nat.succ_pos k)
        simpa using this
      have hk : IsFirstAt rest c k := by
        refine ⟨by simpa using h.1, fun m hm => ?_⟩
        have := h.2 (m + 1) (Nat.succ_lt_succ hm)
        simpa using this
      have hne : (k : Int) ≠ -1 := by omega
      simp only [indexByte, hb, if_false, ih k hk, hne]
      push_cast
      rfl

theorem lastIndexByte_of_isLastAt (s : GoString) (c j : Nat) (h : IsLastAt s c j) :
    lastIndexByte s c = (j : Int) := by
  induction s generalizing j with
  | nil => simp [IsLastAt] at h
  | cons b rest ih =>
    cases j with
    | zero =>
      have hb : b = c := by simpa [IsLastAt] using h.1
      have hr : c ∉ rest := by
        intro hmem
        obtain ⟨n, hn⟩ := List.getElem?_of_mem hmem
        have := h.2 (n + 1) (Nat.succ_pos n)
        exact this (by simpa using hn)
      simp [lastIndexByte, hb, lastIndexByte_of_not_mem rest c hr]
    | succ k =>
      have hk : IsLastAt rest c k := by
        refine ⟨by simpa using h.1, fun m hm => ?_⟩
        have := h.2 (m + 1) (Nat.succ_lt_succ hm)
        simpa using this
      have hne : (k : Int) ≠ -1 := by omega
      simp only [lastIndexByte, ih k hk, hne, if_false]
      push_cast
      rfl

/-- C1: `extractJSON` returns the substring from the first `{` to the last `}`
(both included) when the last `}` lies strictly after the first `{`, and the
empty string when there is no `{`, no `}`, or the last `}` is at or before the
first `{`; the three sample inputs evaluate as documented. -/
theorem extractJSON_first_to_last (s : GoString) :
    (∀ i j, IsFirstAt s lbrace i → IsLastAt s rbrace j → i < j →
        extractJSON s = (s.drop i).take (j + 1 - i)) ∧
    (lbrace ∉ s → extractJSON s = []) ∧
    (rbrace ∉ s → extractJSON s = []) ∧
    (∀ i j, IsFirstAt s lbrace i → IsLastAt s rbrace j → j ≤ i → extractJSON s = []) ∧
    extractJSON (ascii "status: ok\n\x7b\"a\":1\x7d\n") = ascii "\x7b\"a\":1\x7d" ∧
    extractJSON (ascii "no braces at all") = [] ∧
    extractJSON (ascii "\x7bincomplete") = [] := by
  refine ⟨?_, ?_, ?_, ?_, by decide, by decide, by decide⟩
  · intro i j hi hj hij
    have h1 := indexByte_of_isFirstAt s lbrace i hi
    have h2 := lastIndexByte_of_isLastAt s rbrace j hj
    have e1 : ¬ ((i : Int) = -1) := by omega
    have e2 : ¬ ((j : Int) = -1 ∨ (j : Int) ≤ (i : Int)) := by omega
    have e3 : ((j : Int) + 1).toNat = j + 1 := by omega
    simp only [extractJSON, h1, h2, e1, e2, if_false, slice, Int.toNat_ofNat, e3]
  · intro h
    simp [extractJSON, indexByte_of_not_mem s lbrace h]
  · intro h
    simp [extractJSON, lastIndexByte_of_not_mem s rbrace h]
  · intro i j hi hj hij
    have h1 := indexByte_of_isFirstAt s lbrace i hi
    have h2 := lastIndexByte_of_isLastAt s rbrace j hj
    have e2 : ((j : Int) = -1 ∨ (j : Int) ≤ (i : Int)) := by omega
    simp only [extractJSON, h1, h2, e2, if_true, ite_self]

/-! ## Path sandbox -/

/-- C2: with the work directory `/srv/work`, `safePath` accepts
`../work2/secret` and returns `/srv/work2/secret`, a location outside the
root; with the work directory `/etc/p` it accepts `../../etc/passwd`. -/
theorem safePath_accepts_sibling_escape :
    safePath (ascii "/srv/work") (some (ascii "/app")) (ascii "../work2/secret")
      = .ok (ascii "/srv/work2/secret") ∧
    withinRoot (absPath (some (ascii "/app")) (ascii "/srv/work"))
      (absPath (some (ascii "/app")) (ascii "/srv/work2/secret")) = false ∧
    safePath (ascii "/etc/p") (some (ascii "/app")) (ascii "../../etc/passwd")
      = .ok (ascii "/etc/passwd") ∧
    withinRoot (absPath (some (ascii "/app")) (ascii "/etc/p"))
      (absPath (some (ascii "/app")) (ascii "/etc/passwd")) = false := by
  decide

/-! ## Trigger handler -/

theorem unlock_tryLock (s s1 : ServerState) (h : tryLock s = some s1) : unlock s1 = s := by
  unfold tryLock at h
  cases hm : s.tfMutex with
  | true => simp [hm] at h
  | false =>
    simp only [hm, Bool.false_eq_true, if_false, Option.some.injEq] at h
    subst h
    cases s
    simp_all [unlock]

theorem tryLock_of_free (s : ServerState) (h : s.tfMutex = false) :
    tryLock s = some { s with tfMutex := true } := by
  simp [tryLock, h]

theorem tryLock_of_held (s : ServerState) (h : s.tfMutex = true) : tryLock s = none := by
  simp [tryLock, h]

theorem any_eq_false_of_unmet (entries : List GoString)
    (h : ∀ e ∈ entries, endsWith e (ascii ".tf") = false) :
    entries.any (fun e => endsWith e (ascii ".tf")) = false := by
  rw [List.any_eq_false]
  intro e he
  simp [h e he]

/-- A trigger request with unmet preconditions leaves the state as it was. -/
theorem handleTerraformPlan_unmet_state (env : TriggerEnv) (s : ServerState)
    (hpre : preconditionsUnmet env) : (handleTerraformPlan env s).2 = s := by
  unfold handleTerraformPlan
  split
  · rfl
  · cases hl : tryLock s with
    | none => rfl
    | some s1 =>
      have hu := unlock_tryLock s s1 hl
      rcases hpre with hnone | ⟨entries, hsome, hno⟩
      · simp [hnone, hu]
      · simp [hsome, any_eq_false_of_unmet entries hno, hu]

/-- C3 (counterexample): a trigger request whose terraform directory cannot
be read, arriving while the gate is held, is answered with the conflict
code 409 and not with 400. -/
theorem unmet_while_held_is_conflict :
    sampleHeld.tfMutex = true ∧ sampleNoDir.method = ascii "POST" ∧
    sampleNoDir.readDir = none ∧
    (handleTerraformPlan sampleNoDir sampleHeld).1.code = 409 ∧
    (handleTerraformPlan sampleNoDir sampleHeld).1.code ≠ 400 := by
  decide

/-- C3 (amended): a trigger request with unmet preconditions is answered with
code 400 when the gate is free and with the conflict code 409 when the gate
is held (the gate is tried before the preconditions are checked); in both
cases the state afterwards is the state before: same registry, same
pipelines, gate as it was. -/
theorem handleTerraformPlan_unmet (env : TriggerEnv) (s : ServerState)
    (hm : env.method = ascii "POST") (hpre : preconditionsUnmet env) :
    (handleTerraformPlan env s).1.code = (if s.tfMutex then 409 else 400) ∧
    (handleTerraformPlan env s).2 = s := by
  refine ⟨?_, handleTerraformPlan_unmet_state env s hpre⟩
  unfold handleTerraformPlan
  cases hg : s.tfMutex with
  | true => simp [hm, tryLock_of_held s hg, Response.code]
  | false =>
    rcases hpre with hnone | ⟨entries, hsome, hno⟩
    · simp [hm, tryLock_of_free s hg, hnone, Response.code]
    · simp [hm, tryLock_of_free s hg, hsome, any_eq_false_of_unmet entries hno, Response.code]

/-- C3 (witness): the directory-less and the `.tf`-less request, on a free and
on a held gate. -/
theorem handleTerraformPlan_unmet_witness :
    ((handleTerraformPlan sampleNoTf ServerState.init).1.code
        = (if ServerState.init.tfMutex then 409 else 400) ∧
      (handleTerraformPlan sampleNoTf ServerState.init).2 = ServerState.init) ∧
    (handleTerraformPlan sampleNoTf ServerState.init).1.code = 400 :=
  ⟨handleTerraformPlan_unmet sampleNoTf ServerState.init (by decide)
      (Or.inr ⟨[ascii "README.md"], by decide, by decide⟩), by decide⟩

/-- C4: a trigger request arriving while the gate is held is answered with
the conflict error 409 and changes nothing: registry, launched pipelines and
gate are as before. -/
theorem handleTerraformPlan_conflict (env : TriggerEnv) (s : ServerState)
    (hm : env.method = ascii "POST") (hg : s.tfMutex = true) :
    handleTerraformPlan env s =
      (.jsonError (ascii "Another Terraform operation is already running") 409, s) ∧
    (handleTerraformPlan env s).1.code = 409 ∧
    (handleTerraformPlan env s).2.tfJobs = s.tfJobs ∧
    (handleTerraformPlan env s).2.running = s.running ∧
    (handleTerraformPlan env s).2.tfMutex = true := by
  have h : handleTerraformPlan env s =
      (.jsonError (ascii "Another Terraform operation is already running") 409, s) := by
    unfold handleTerraformPlan
    simp [hm, tryLock_of_held s hg]
  rw [h]
  exact ⟨rfl, rfl, rfl, rfl, hg⟩

/-- C4 (witness): a second trigger while the first pipeline holds the gate. -/
theorem handleTerraformPlan_conflict_witness :
    sampleHeld.tfMutex = true ∧
    handleTerraformPlan (sampleTrigger sampleAllSucceed) sampleHeld =
      (.jsonError (ascii "Another Terraform operation is already running") 409, sampleHeld) :=
  ⟨by decide,
   (handleTerraformPlan_conflict (sampleTrigger sampleAllSucceed) sampleHeld
      (by decide) (by decide)).1⟩

/-! ## Pipeline shape -/

theorem finalStatus_append (st : GoString) (xs ys : List Action) :
    finalStatus st (xs ++ ys) = finalStatus (finalStatus st xs) ys := by
  induction xs generalizing st with
  | nil => rfl
  | cons a rest ih => cases a <;> simp [finalStatus, ih]

theorem unlockLast_cons_cons (a b : Action) (tl : List Action) :
    unlockLast (a :: b :: tl) = (a != Action.unlock && unlockLast (b :: tl)) := rfl

theorem unlockLast_append_unlock (xs : List Action) (h : Action.unlock ∉ xs) :
    unlockLast (xs ++ [Action.unlock]) = true := by
  induction xs with
  | nil => simp [unlockLast]
  | cons a rest ih =>
    have ha : a ≠ Action.unlock := fun e => h (by simp [e])
    have hr : Action.unlock ∉ rest := fun e => h (by simp [e])
    cases hrest : rest ++ [Action.unlock] with
    | nil => simp at hrest
    | cons b tl =>
      have ih2 := ih hr
      rw [hrest] at ih2
      rw [List.cons_append, hrest, unlockLast_cons_cons, ih2]
      simp [ha]

theorem updateConfigActions_shape (env : PipelineEnv) :
    Action.unlock ∉ updateConfigActions env ∧
    ∀ st, finalStatus st (updateConfigActions env) = st := by
  unfold updateConfigActions
  cases safePath env.envWorkDir env.cwd (ascii "config/cloudrift.yml") with
  | error e => simp [finalStatus]
  | ok p =>
    cases env.configData with
    | none => simp [finalStatus]
    | some d => simp [finalStatus]

theorem shape_prepend (pre tail : List Action) (hpre : Action.unlock ∉ pre)
    (h : Action.unlock ∉ tail ∧ ∀ st, isTerminal (finalStatus st tail) = true) :
    Action.unlock ∉ pre ++ tail ∧
    ∀ st, isTerminal (finalStatus st (pre ++ tail)) = true := by
  refine ⟨?_, fun st => ?_⟩
  · intro hmem
    rcases List.mem_append.mp hmem with h1 | h1
    · exact hpre h1
    · exact h.1 h1
  · rw [finalStatus_append]
    exact h.2 _

theorem savePlanActions_shape (tfDir : GoString) (env : PipelineEnv) :
    Action.unlock ∉ savePlanActions tfDir env ∧
    ∀ st, isTerminal (finalStatus st (savePlanActions tfDir env)) = true := by
  have hc := updateConfigActions_shape env
  have ht1 : isTerminal (ascii "error") = true := by decide
  have ht2 : isTerminal (ascii "completed") = true := by decide
  unfold savePlanActions
  dsimp only
  split
  · simp [finalStatus, ht1]
  · split
    · simp [finalStatus, ht1]
    · simp [finalStatus, finalStatus_append, hc.1, hc.2, ht2]

theorem showActions_shape (tfDir : GoString) (env : PipelineEnv) :
    Action.unlock ∉ showActions tfDir env ∧
    ∀ st, isTerminal (finalStatus st (showActions tfDir env)) = true := by
  have hs := savePlanActions_shape tfDir env
  have ht1 : isTerminal (ascii "error") = true := by decide
  unfold showActions
  split
  · simp [finalStatus, ht1]
  · split
    · simp [finalStatus, ht1]
    · exact shape_prepend _ _ (by simp) hs

theorem planActions_shape (tfDir : GoString) (env : PipelineEnv) (buf : GoString) :
    Action.unlock ∉ planActions tfDir env buf ∧
    ∀ st, isTerminal (finalStatus st (planActions tfDir env buf)) = true := by
  have hs := showActions_shape tfDir env
  have ht1 : isTerminal (ascii "error") = true := by decide
  unfold planActions
  dsimp only
  split
  · simp [finalStatus, ht1]
  · exact shape_prepend _ _ (by simp) hs

/-- The body of the pipeline never releases the gate itself and always ends
with the status `completed` or `error`. -/
theorem pipelineBody_shape (tfDir : GoString) (env : PipelineEnv) :
    Action.unlock ∉ pipelineBody tfDir env ∧
    ∀ st, isTerminal (finalStatus st (pipelineBody tfDir env)) = true := by
  have hs := planActions_shape tfDir env (env.initOutput ++ [10])
  have ht1 : isTerminal (ascii "error") = true := by decide
  unfold pipelineBody
  dsimp only
  split
  · simp [finalStatus, ht1]
  · exact shape_prepend _ _ (by simp) hs

theorem runTerraformPipeline_ne_nil (tfDir : GoString) (env : PipelineEnv) :
    runTerraformPipeline tfDir env ≠ [] := by
  simp [runTerraformPipeline]

theorem runTerraformPipeline_unlockLast (tfDir : GoString) (env : PipelineEnv) :
    unlockLast (runTerraformPipeline tfDir env) = true :=
  unlockLast_append_unlock _ (pipelineBody_shape tfDir env).1

theorem runTerraformPipeline_terminal (tfDir : GoString) (env : PipelineEnv) (st : GoString) :
    isTerminal (finalStatus st (runTerraformPipeline tfDir env)) = true := by
  rw [runTerraformPipeline, finalStatus_append]
  simpa [finalStatus] using (pipelineBody_shape tfDir env).2 st

/-! ## The invariant holds in every reachable state -/

theorem handleTerraformPlan_state_cases (env : TriggerEnv) (s : ServerState) :
    (handleTerraformPlan env s).2 = s ∨
    (s.tfMutex = false ∧
      (handleTerraformPlan env s).2 = registerAndLaunch env { s with tfMutex := true }) := by
  unfold handleTerraformPlan
  split
  · exact Or.inl rfl
  · cases hg : s.tfMutex with
    | true => rw [tryLock_of_held s hg]; exact Or.inl rfl
    | false =>
      rw [tryLock_of_free s hg]
      have hu : unlock { s with tfMutex := true } = s :=
        unlock_tryLock s _ (tryLock_of_free s hg)
      cases env.readDir with
      | none => exact Or.inl hu
      | some entries =>
        dsimp only
        split
        · exact Or.inl hu
        · exact Or.inr ⟨rfl, rfl⟩

theorem inv_init : Inv ServerState.init where
  nodup := by simp [ServerState.init]
  alloc := by simp [ServerState.init]
  single := by simp [ServerState.init]
  owner := by simp [ServerState.init]
  owned := by simp [ServerState.init]
  held := by simp [ServerState.init]

theorem inv_sweep (now : Time) (s : ServerState) (h : Inv s) : Inv (sweep now s) where
  nodup := (List.filter_sublist _).map Prod.snd |>.nodup h.nodup
  alloc := fun e he => h.alloc e (List.mem_of_mem_filter he)
  single := h.single
  owner := h.owner
  owned := h.owned
  held := h.held

/-- While the gate is free no launched pipeline has actions left. -/
theorem inv_idle_of_free (s : ServerState) (h : Inv s) (hfree : s.tfMutex = false)
    (i : Nat) (g : Goroutine) (hg : s.running[i]? = some g) : g.todo = [] := by
  by_contra hne
  have := (h.owner i g hg hne).1
  rw [hfree] at this
  exact Bool.false_ne_true this

theorem getElem?_append_singleton (l : List α) (a b : α) (i : Nat)
    (h : (l ++ [a])[i]? = some b) : l[i]? = some b ∨ (i = l.length ∧ b = a) := by
  by_cases hi : i < l.length
  · rw [List.getElem?_append_left hi] at h
    exact Or.inl h
  · have hle : l.length ≤ i := Nat.le_of_not_lt hi
    rw [List.getElem?_append_right hle] at h
    cases hk : i - l.length with
    | zero =>
      rw [hk] at h
      simp at h
      exact Or.inr ⟨by omega, h.symm⟩
    | succ k =>
      rw [hk] at h
      simp at h

theorem inv_registerAndLaunch (env : TriggerEnv) (s : ServerState) (h : Inv s)
    (hfree : s.tfMutex = false) :
    Inv (registerAndLaunch env { s with tfMutex := true }) := by
  have hidle := inv_idle_of_free s h hfree
  refine ⟨?_, ?_, ?_, ?_, ?_, ?_⟩
  · show ((mapInsert s.tfJobs _ s.heap.length).map Prod.snd).Nodup
    unfold mapInsert
    rw [List.map_append, List.nodup_append]
    refine ⟨(List.filter_sublist _).map Prod.snd |>.nodup h.nodup, by simp, ?_⟩
    intro x hx hx2
    simp only [List.map_cons, List.map_nil, List.mem_singleton] at hx2
    obtain ⟨e, he, rfl⟩ := List.mem_map.mp hx
    have := h.alloc e (List.mem_of_mem_filter he)
    omega
  · intro e he
    show e.2 < (s.heap ++ [_]).length
    rw [List.length_append]
    have he2 : e ∈ mapInsert s.tfJobs (jobID (unixMilli env.idNow)) s.heap.length := he
    unfold mapInsert at he2
    rcases List.mem_append.mp he2 with h1 | h1
    · have := h.alloc e (List.mem_of_mem_filter h1)
      omega
    · simp only [List.mem_singleton] at h1
      subst h1
      simp
  · intro i j gi gj hi hj hai haj
    rcases getElem?_append_singleton _ _ _ _ hi with h1 | ⟨h1, _⟩
    · exact absurd (hidle i gi h1) hai
    · rcases getElem?_append_singleton _ _ _ _ hj with h2 | ⟨h2, _⟩
      · exact absurd (hidle j gj h2) haj
      · rw [h1, h2]
  · intro i g hi ha
    rcases getElem?_append_singleton _ _ _ _ hi with h1 | ⟨_, h1⟩
    · exact absurd (hidle i g h1) ha
    · subst h1
      refine ⟨rfl, runTerraformPipeline_unlockLast _ _, ?_, ?_⟩
      · show s.heap.length < (s.heap ++ [_]).length
        simp
      · intro job _
        exact runTerraformPipeline_terminal _ _ _
  · intro p job hp hnt
    rcases getElem?_append_singleton _ _ _ _ hp with h1 | ⟨h1, _⟩
    · obtain ⟨i, g, hg, _, hne⟩ := h.owned p job h1 hnt
      exact absurd (hidle i g hg) hne
    · refine ⟨s.running.length, _, List.getElem?_concat_length _ _, h1.symm, ?_⟩
      exact runTerraformPipeline_ne_nil _ _
  · intro _
    exact ⟨s.running.length, _, List.getElem?_concat_length _ _,
      runTerraformPipeline_ne_nil _ _⟩

theorem inv_handleTerraformPlan (env : TriggerEnv) (s : ServerState) (h : Inv s) :
    Inv (handleTerraformPlan env s).2 := by
  rcases handleTerraformPlan_state_cases env s with h1 | ⟨hfree, h1⟩
  · rw [h1]; exact h
  · rw [h1]; exact inv_registerAndLaunch env s h hfree

theorem getElem?_set_cases (l : List α) (i j : Nat) (a b : α)
    (h : (l.set i a)[j]? = some b) : (j = i ∧ b = a) ∨ (j ≠ i ∧ l[j]? = some b) := by
  rw [List.getElem?_set] at h
  split at h
  · rename_i hij
    split at h
    · exact Or.inl ⟨hij.symm, by simpa using h.symm⟩
    · simp at h
  · rename_i hij
    exact Or.inr ⟨fun e => hij e.symm, h⟩

theorem unlockLast_unlock_cons (rest : List Action)
    (h : unlockLast (Action.unlock :: rest) = true) : rest = [] := by
  cases rest with
  | nil => rfl
  | cons b tl => simp [unlockLast_cons_cons] at h

theorem unlockLast_cons_of_ne (a : Action) (rest : List Action) (ha : a ≠ Action.unlock)
    (h : unlockLast (a :: rest) = true) : rest ≠ [] ∧ unlockLast rest = true := by
  cases rest with
  | nil => simp [unlockLast, ha] at h
  | cons b tl =>
    rw [unlockLast_cons_cons] at h
    simp only [Bool.and_eq_true] at h
    exact ⟨by simp, h.2⟩

theorem finalStatus_cons (a : Action) (rest : List Action) (job : TerraformJob) :
    finalStatus job.Status (a :: rest) = finalStatus (a.apply job).Status rest := by
  cases a <;> rfl

theorem applyAction_of_ne_unlock (a : Action) (ptr : Nat) (s : ServerState)
    (job : TerraformJob) (ha : a ≠ Action.unlock) (hj : s.heap[ptr]? = some job) :
    applyAction a ptr s = { s with heap := s.heap.set ptr (a.apply job) } := by
  cases a <;> first | exact absurd rfl ha | simp [applyAction, hj]

theorem inv_release (i : Nat) (s : ServerState) (g : Goroutine) (h : Inv s)
    (hg : s.running[i]? = some g) (ht : g.todo = [Action.unlock]) :
    Inv { unlock s with running := s.running.set i ⟨g.job, []⟩ } := by
  have hact : g.todo ≠ [] := by rw [ht]; simp
  have hown := h.owner i g hg hact
  refine ⟨h.nodup, h.alloc, ?_, ?_, ?_, ?_⟩
  rotate_left 3
  · intro hheld
    exact absurd hheld (by simp [unlock])
  · intro j k gj gk hj hk haj hak
    rcases getElem?_set_cases _ _ _ _ _ hj with ⟨_, e⟩ | ⟨_, hj2⟩
    · subst e; exact absurd rfl haj
    · rcases getElem?_set_cases _ _ _ _ _ hk with ⟨_, e⟩ | ⟨_, hk2⟩
      · subst e; exact absurd rfl hak
      · exact h.single j k gj gk hj2 hk2 haj hak
  · intro j gj hj haj
    rcases getElem?_set_cases _ _ _ _ _ hj with ⟨_, e⟩ | ⟨hne, hj2⟩
    · subst e; exact absurd rfl haj
    · exact absurd (h.single j i gj g hj2 hg haj hact) hne
  · intro p job hp hnt
    obtain ⟨k, g0, hk, hjob, hne⟩ := h.owned p job hp hnt
    have hki := h.single k i g0 g hk hg hne hact
    subst hki
    have hgg : g0 = g := by rw [hk] at hg; exact Option.some.inj hg
    subst hgg
    have hterm := hown.2.2.2 job (by rw [hjob]; exact hp)
    rw [ht] at hterm
    simp only [finalStatus] at hterm
    rw [hnt] at hterm
    exact absurd hterm (by simp)

theorem inv_assign (i : Nat) (s : ServerState) (g : Goroutine) (a : Action)
    (rest : List Action) (job0 : TerraformJob) (h : Inv s)
    (hg : s.running[i]? = some g) (ht : g.todo = a :: rest) (ha : a ≠ Action.unlock)
    (hj : s.heap[g.job]? = some job0) :
    Inv { s with heap := s.heap.set g.job (a.apply job0),
                 running := s.running.set i ⟨g.job, rest⟩ } := by
  have hact : g.todo ≠ [] := by rw [ht]; simp
  have hown := h.owner i g hg hact
  rw [ht] at hown
  have hrest := unlockLast_cons_of_ne a rest ha hown.2.1
  have hidx : ∀ j gj, (s.running.set i ⟨g.job, rest⟩)[j]? = some gj → gj.todo ≠ [] →
      j = i ∧ gj = ⟨g.job, rest⟩ := by
    intro j gj hj2 haj
    rcases getElem?_set_cases _ _ _ _ _ hj2 with ⟨e1, e2⟩ | ⟨hne, hj3⟩
    · exact ⟨e1, e2⟩
    · exact absurd (h.single j i gj g hj3 hg haj hact) hne
  have hlen : i < s.running.length := (List.getElem?_eq_some.mp hg).1
  refine ⟨h.nodup, ?_, ?_, ?_, ?_, ?_⟩
  rotate_left 4
  · intro _
    exact ⟨i, ⟨g.job, rest⟩, List.getElem?_set_self hlen, hrest.1⟩
  · intro e he
    show e.2 < (s.heap.set _ _).length
    rw [List.length_set]
    exact h.alloc e he
  · intro j k gj gk hj2 hk2 haj hak
    rw [(hidx j gj hj2 haj).1, (hidx k gk hk2 hak).1]
  · intro j gj hj2 haj
    obtain ⟨_, e⟩ := hidx j gj hj2 haj
    subst e
    refine ⟨hown.1, hrest.2, ?_, ?_⟩
    · show g.job < (s.heap.set _ _).length
      rw [List.length_set]
      exact hown.2.2.1
    · intro job hjob
      have hjob2 : (s.heap.set g.job (a.apply job0))[g.job]? = some job := hjob
      rw [List.getElem?_set_self hown.2.2.1] at hjob2
      have e : job = a.apply job0 := (Option.some.inj hjob2).symm
      subst e
      rw [← finalStatus_cons]
      exact hown.2.2.2 job0 hj
  · intro p job hp hnt
    have hp2 : (s.heap.set g.job (a.apply job0))[p]? = some job := hp
    by_cases hpg : g.job = p
    · exact ⟨i, ⟨g.job, rest⟩, List.getElem?_set_self hlen, hpg, hrest.1⟩
    · rw [List.getElem?_set_ne hpg] at hp2
      obtain ⟨k, g0, hk, hjob, hne⟩ := h.owned p job hp2 hnt
      have hki := h.single k i g0 g hk hg hne hact
      subst hki
      have hgg : g0 = g := by rw [hk] at hg; exact Option.some.inj hg
      subst hgg
      exact absurd hjob hpg

theorem inv_pipelineStep (i : Nat) (s : ServerState) (h : Inv s) : Inv (pipelineStep i s) := by
  unfold pipelineStep
  cases hg : s.running[i]? with
  | none => exact h
  | some g =>
    dsimp only
    cases ht : g.todo with
    | nil => exact h
    | cons a rest =>
      dsimp only
      have hact : g.todo ≠ [] := by rw [ht]; simp
      have hown := h.owner i g hg hact
      by_cases ha : a = Action.unlock
      · subst ha
        have hr : rest = [] := unlockLast_unlock_cons rest (by rw [← ht]; exact hown.2.1)
        subst hr
        exact inv_release i s g h hg ht
      · have hl : g.job < s.heap.length := hown.2.2.1
        have hj : s.heap[g.job]? = some (s.heap.get ⟨g.job, hl⟩) := List.getElem?_eq_getElem hl
        rw [applyAction_of_ne_unlock a g.job s _ ha hj]
        exact inv_assign i s g a rest _ h hg ht ha hj

/-- Every reachable state satisfies the invariant. -/
theorem reachable_inv (s : ServerState) (h : Reachable s) : Inv s := by
  induction h with
  | init => exact inv_init
  | step e s _ ih =>
    cases e with
    | trigger env => exact inv_handleTerraformPlan env s ih
    | pipeline i => exact inv_pipelineStep i s ih
    | poll m id now => exact ih
    | sweep now => exact inv_sweep now s ih

/-! ## Single flight -/

theorem length_le_one_of_all_eq (l : List Nat) (hn : l.Nodup)
    (h : ∀ x ∈ l, ∀ y ∈ l, x = y) : l.length ≤ 1 := by
  cases l with
  | nil => simp
  | cons x t =>
    cases t with
    | nil => simp
    | cons y t2 =>
      have hxy : x = y := h x (by simp) y (by simp)
      subst hxy
      simp at hn

theorem filterMap_filter_length (heap : List TerraformJob) (l : List (GoString × Nat)) :
    ((l.filterMap (fun e => heap[e.2]?)).filter (fun job => !isTerminal job.Status)).length
      = (l.filter (fun e =>
          match heap[e.2]? with
          | some job => !isTerminal job.Status
          | none => false)).length := by
  induction l with
  | nil => rfl
  | cons e t ih =>
    cases he : heap[e.2]? with
    | none => simp [List.filterMap_cons, List.filter_cons, he, ih]
    | some job =>
      cases hs : isTerminal job.Status <;>
        simp [List.filterMap_cons, List.filter_cons, he, hs, ih]

theorem inv_activeCount (s : ServerState) (h : Inv s) : activeCount s ≤ 1 := by
  unfold activeCount registryJobs
  rw [filterMap_filter_length, ← List.length_map _ Prod.snd]
  apply length_le_one_of_all_eq
  · exact (List.filter_sublist _).map Prod.snd |>.nodup h.nodup
  · have key : ∀ x, x ∈ (s.tfJobs.filter (fun e =>
          match s.heap[e.2]? with
          | some job => !isTerminal job.Status
          | none => false)).map Prod.snd →
        ∃ (i : Nat) (g : Goroutine), s.running[i]? = some g ∧ g.job = x ∧ g.todo ≠ [] := by
      intro x hx
      obtain ⟨e, he, rfl⟩ := List.mem_map.mp hx
      have hp := (List.mem_filter.mp he).2
      cases hj : s.heap[e.2]? with
      | none => simp [hj] at hp
      | some job =>
        simp only [hj, Bool.not_eq_true'] at hp
        exact h.owned e.2 job hj hp
    intro x hx y hy
    obtain ⟨i, gi, hgi, hxi, hai⟩ := key x hx
    obtain ⟨j, gj, hgj, hyj, haj⟩ := key y hy
    have hij := h.single i j gi gj hgi hgj hai haj
    subst hij
    have : gi = gj := by rw [hgi] at hgj; exact Option.some.inj hgj
    subst this
    rw [← hxi, ← hyj]

/-- C5: in every state reachable from the initial state by trigger requests,
pipeline steps, polls and sweeps, at most one job of the registry has a
status other than `completed` or `error`. -/
theorem single_active_job (s : ServerState) (h : Reachable s) : activeCount s ≤ 1 :=
  inv_activeCount s (reachable_inv s h)

/-- C5 (witness): after an accepted trigger, a rejected second trigger, a
sweep and one pipeline step, exactly one registry job is not terminal. -/
theorem single_active_job_witness :
    activeCount (step (.pipeline 0) (step (.sweep (unixEpoch + hour))
      (step (.trigger (sampleTrigger sampleAllSucceed))
        (step (.trigger (sampleTrigger sampleInitFails)) ServerState.init)))) ≤ 1 ∧
    activeCount (step (.pipeline 0) (step (.sweep (unixEpoch + hour))
      (step (.trigger (sampleTrigger sampleAllSucceed))
        (step (.trigger (sampleTrigger sampleInitFails)) ServerState.init)))) = 1 :=
  ⟨single_active_job _
    (Reachable.step _ _ (Reachable.step _ _ (Reachable.step _ _
      (Reachable.step _ _ Reachable.init)))), by decide⟩

/-! ## Release of the gate -/

theorem any_eq_true_of_met (entries : List GoString)
    (h : ∃ e ∈ entries, endsWith e (ascii ".tf") = true) :
    entries.any (fun e => endsWith e (ascii ".tf")) = true := by
  rw [List.any_eq_true]
  exact h

/-- A trigger request that meets the preconditions and finds the gate free
is accepted. -/
theorem handleTerraformPlan_accepted (env : TriggerEnv) (s : ServerState)
    (hm : env.method = ascii "POST") (hfree : s.tfMutex = false) (hp : preconditionsMet env) :
    handleTerraformPlan env s =
      (startedResponse env, registerAndLaunch env { s with tfMutex := true }) := by
  obtain ⟨entries, hsome, hex⟩ := hp
  unfold handleTerraformPlan
  simp [hm, tryLock_of_free s hfree, hsome, any_eq_true_of_met entries hex, startedResponse]

theorem applyAction_running (a : Action) (ptr : Nat) (s : ServerState) :
    (applyAction a ptr s).running = s.running := by
  cases a <;> simp only [applyAction, unlock] <;> split <;> rfl

theorem set_eq_self_of_getElem? (l : List α) (k : Nat) (a : α) (h : l[k]? = some a) :
    l.set k a = l := by
  apply List.ext_getElem?
  intro j
  by_cases hjk : k = j
  · subst hjk
    rw [List.getElem?_set_self (List.getElem?_eq_some.mp h).1, h]
  · rw [List.getElem?_set_ne hjk]

theorem pipelineSteps_running (k ptr : Nat) (todo : List Action) (s : ServerState)
    (h : s.running[k]? = some ⟨ptr, todo⟩) :
    (pipelineSteps k todo.length s).running = s.running.set k ⟨ptr, []⟩ := by
  induction todo generalizing s with
  | nil => exact (set_eq_self_of_getElem? _ _ _ h).symm
  | cons a rest ih =>
    have hlen : k < s.running.length := (List.getElem?_eq_some.mp h).1
    have hstep : (pipelineStep k s).running = s.running.set k ⟨ptr, rest⟩ := by
      simp [pipelineStep, h, applyAction_running]
    have hk : (pipelineStep k s).running[k]? = some ⟨ptr, rest⟩ := by
      rw [hstep]
      exact List.getElem?_set_self hlen
    simp only [List.length_cons, pipelineSteps]
    rw [ih _ hk, hstep, List.set_set]

theorem reachable_pipelineSteps (k n : Nat) (s : ServerState) (h : Reachable s) :
    Reachable (pipelineSteps k n s) := by
  induction n generalizing s with
  | zero => exact h
  | succ n ih => exact ih _ (Reachable.step (.pipeline k) s h)

/-- In a reachable state in which every launched pipeline has returned the
gate is free. -/
theorem free_of_allReturned (s : ServerState) (h : Reachable s) (hall : allReturned s) :
    s.tfMutex = false := by
  cases hg : s.tfMutex with
  | false => rfl
  | true =>
    obtain ⟨i, g, hi, hne⟩ := (reachable_inv s h).held hg
    exact absurd (hall i g hi) hne

/-- C6: whatever the answers of the environment to a pipeline run (each stage
failing or succeeding, invalid JSON, path or write failure), once the
launched pipeline has performed all its effects every pipeline has returned
and the gate is free, and a following trigger request that meets the
preconditions is accepted with status `started` and its job id; the same
holds in every reachable state in which all launched pipelines have returned. -/
theorem gate_free_after_pipeline (s : ServerState) (env next : TriggerEnv)
    (hs : Reachable s) (hfree : s.tfMutex = false)
    (hm : env.method = ascii "POST") (hp : preconditionsMet env)
    (hm2 : next.method = ascii "POST") (hp2 : preconditionsMet next) :
    (handleTerraformPlan env s).2.tfMutex = true ∧
    (handleTerraformPlan env s).2.running[s.running.length]?
      = some ⟨s.heap.length, runTerraformPipeline (tfDirOf env) env.pipeline⟩ ∧
    allReturned (pipelineSteps s.running.length
      (runTerraformPipeline (tfDirOf env) env.pipeline).length (handleTerraformPlan env s).2) ∧
    (pipelineSteps s.running.length
      (runTerraformPipeline (tfDirOf env) env.pipeline).length
      (handleTerraformPlan env s).2).tfMutex = false ∧
    (handleTerraformPlan next (pipelineSteps s.running.length
      (runTerraformPipeline (tfDirOf env) env.pipeline).length
      (handleTerraformPlan env s).2)).1 = startedResponse next ∧
    (∀ t, Reachable t → allReturned t →
      t.tfMutex = false ∧ (handleTerraformPlan next t).1 = startedResponse next) := by
  have hgen : ∀ t, Reachable t → allReturned t →
      t.tfMutex = false ∧ (handleTerraformPlan next t).1 = startedResponse next := by
    intro t ht hall
    have hf := free_of_allReturned t ht hall
    exact ⟨hf, by rw [handleTerraformPlan_accepted next t hm2 hf hp2]⟩
  have hacc := handleTerraformPlan_accepted env s hm hfree hp
  have hidle := inv_idle_of_free s (reachable_inv s hs) hfree
  have hreach1 : Reachable (handleTerraformPlan env s).2 := Reachable.step (.trigger env) s hs
  have hk : (handleTerraformPlan env s).2.running[s.running.length]?
      = some ⟨s.heap.length, runTerraformPipeline (tfDirOf env) env.pipeline⟩ := by
    rw [hacc]
    exact List.getElem?_concat_length _ _
  have hrun := pipelineSteps_running s.running.length s.heap.length _ _ hk
  have hall : allReturned (pipelineSteps s.running.length
      (runTerraformPipeline (tfDirOf env) env.pipeline).length (handleTerraformPlan env s).2) := by
    intro j g hj
    rw [hrun] at hj
    rcases getElem?_set_cases _ _ _ _ _ hj with ⟨_, e⟩ | ⟨hne, hj2⟩
    · rw [e]
    · rw [hacc] at hj2
      rcases getElem?_append_singleton _ _ _ _ hj2 with h1 | ⟨h1, _⟩
      · exact hidle j g h1
      · exact absurd h1 hne
  have hres := hgen _ (reachable_pipelineSteps _ _ _ hreach1) hall
  refine ⟨by rw [hacc]; rfl, hk, hall, hres.1, hres.2, hgen⟩

/-- C6 (witness): a first pipeline whose `terraform init` fails, then a
second trigger. -/
theorem gate_free_after_pipeline_witness :
    (pipelineSteps 0 (runTerraformPipeline (tfDirOf (sampleTrigger sampleInitFails))
        sampleInitFails).length
      (handleTerraformPlan (sampleTrigger sampleInitFails) ServerState.init).2).tfMutex = false ∧
    (handleTerraformPlan (sampleTrigger sampleAllSucceed)
      (pipelineSteps 0 (runTerraformPipeline (tfDirOf (sampleTrigger sampleInitFails))
          sampleInitFails).length
        (handleTerraformPlan (sampleTrigger sampleInitFails) ServerState.init).2)).1
      = .json [(ascii "status", ascii "started"), (ascii "job_id", ascii "tf-1700000000123")] :=
  ⟨(gate_free_after_pipeline ServerState.init (sampleTrigger sampleInitFails)
      (sampleTrigger sampleAllSucceed) Reachable.init (by decide) (by decide)
      ⟨[ascii "main.tf"], by decide, ascii "main.tf", by decide, by decide⟩ (by decide)
      ⟨[ascii "main.tf"], by decide, ascii "main.tf", by decide, by decide⟩).2.2.2.1,
   by decide⟩

/-! ## Job record along a pipeline run -/

theorem jobTrace_cons (j : TerraformJob) (a : Action) (rest : List Action) :
    jobTrace j (a :: rest) = j :: jobTrace (a.apply j) rest := rfl

theorem jobAfter_cons (j : TerraformJob) (a : Action) (rest : List Action) :
    jobAfter j (a :: rest) = jobAfter (a.apply j) rest := rfl

theorem jobAfter_append (j : TerraformJob) (xs ys : List Action) :
    jobAfter j (xs ++ ys) = jobAfter (jobAfter j xs) ys := by
  simp [jobAfter, List.foldl_append]

theorem mem_jobTrace_self (j : TerraformJob) (xs : List Action) : j ∈ jobTrace j xs := by
  cases xs <;> simp [jobTrace]

theorem mem_jobTrace_append (j job : TerraformJob) (xs ys : List Action) :
    job ∈ jobTrace j (xs ++ ys) ↔ job ∈ jobTrace j xs ∨ job ∈ jobTrace (jobAfter j xs) ys := by
  induction xs generalizing j with
  | nil =>
    constructor
    · intro h; exact Or.inr h
    · intro h
      rcases h with h | h
      · have e : job = j := by simpa [jobTrace] using h
        rw [e]; exact mem_jobTrace_self j ys
      · exact h
  | cons a rest ih =>
    rw [List.cons_append, jobTrace_cons, jobTrace_cons, jobAfter_cons, List.mem_cons,
      List.mem_cons, ih, or_assoc]

/-- Actions that assign neither `DoneAt` nor `Status` leave both as they are. -/
theorem kept_both (xs : List Action) (j : TerraformJob)
    (hx : ∀ a ∈ xs, a.keepsDoneAt = true ∧ a.keepsStatus = true) :
    (∀ job ∈ jobTrace j xs, job.DoneAt = j.DoneAt ∧ job.Status = j.Status) ∧
    (jobAfter j xs).DoneAt = j.DoneAt ∧ (jobAfter j xs).Status = j.Status := by
  induction xs generalizing j with
  | nil => simp [jobTrace, jobAfter]
  | cons a rest ih =>
    have ha : (a.apply j).DoneAt = j.DoneAt ∧ (a.apply j).Status = j.Status := by
      have := hx a (by simp)
      cases a <;>
        first
        | exact ⟨rfl, rfl⟩
        | simp [Action.keepsDoneAt, Action.keepsStatus] at this
    have ih2 := ih (a.apply j) (fun b hb => hx b (by simp [hb]))
    refine ⟨?_, ?_, ?_⟩
    · intro job hjob
      rw [jobTrace_cons, List.mem_cons] at hjob
      rcases hjob with e | hmem
      · rw [e]; exact ⟨rfl, rfl⟩
      · exact ⟨(ih2.1 job hmem).1.trans ha.1, (ih2.1 job hmem).2.trans ha.2⟩
    · rw [jobAfter_cons]; exact ih2.2.1.trans ha.1
    · rw [jobAfter_cons]; exact ih2.2.2.trans ha.2

/-- Actions that do not assign `DoneAt` leave it as it is. -/
theorem doneAt_kept (xs : List Action) (j : TerraformJob)
    (h : ∀ a ∈ xs, a.keepsDoneAt = true) :
    (∀ job ∈ jobTrace j xs, job.DoneAt = j.DoneAt) ∧ (jobAfter j xs).DoneAt = j.DoneAt := by
  induction xs generalizing j with
  | nil => simp [jobTrace, jobAfter]
  | cons a rest ih =>
    have ha : (a.apply j).DoneAt = j.DoneAt := by
      have := h a (by simp)
      cases a <;> first | rfl | simp [Action.keepsDoneAt] at this
    have ih2 := ih (a.apply j) (fun b hb => h b (by simp [hb]))
    refine ⟨?_, ?_⟩
    · intro job hjob
      rw [jobTrace_cons, List.mem_cons] at hjob
      rcases hjob with e | hmem
      · rw [e]
      · rw [ih2.1 job hmem, ha]
    · rw [jobAfter_cons]; exact ih2.2.trans ha

theorem stampsLast_prepend (pre tail : List Action)
    (hpre : ∀ a ∈ pre, a.keepsDoneAt = true) (h : StampsLast tail) :
    StampsLast (pre ++ tail) := by
  intro j hj
  have hk := doneAt_kept pre j hpre
  have ht := h (jobAfter j pre) (by rw [hk.2, hj])
  refine ⟨?_, ?_, ?_⟩
  · intro job hjob hne
    rcases (mem_jobTrace_append j job pre tail).mp hjob with h1 | h1
    · exact absurd (by rw [hk.1 job h1, hj]) hne
    · exact ht.1 job h1 hne
  · rw [jobAfter_append]; exact ht.2.1
  · rw [jobAfter_append]; exact ht.2.2

theorem stampsLast_append_kept (body post : List Action)
    (hpost : ∀ a ∈ post, a.keepsDoneAt = true ∧ a.keepsStatus = true) (h : StampsLast body) :
    StampsLast (body ++ post) := by
  intro j hj
  have hb := h j hj
  have hk := kept_both post (jobAfter j body) hpost
  refine ⟨?_, ?_, ?_⟩
  · intro job hjob hne
    rcases (mem_jobTrace_append j job body post).mp hjob with h1 | h1
    · exact hb.1 job h1 hne
    · rw [(hk.1 job h1).2]; exact hb.2.2
  · rw [jobAfter_append, hk.2.1]; exact hb.2.1
  · rw [jobAfter_append, hk.2.2]; exact hb.2.2

/-- A terminal status, then actions that touch neither `Status` nor `DoneAt`,
then the stamp: `DoneAt` becomes non-zero only once the status is terminal. -/
theorem stampsLast_terminal (v : GoString) (hv : isTerminal v = true) (mid : List Action)
    (hmid : ∀ a ∈ mid, a.keepsDoneAt = true ∧ a.keepsStatus = true)
    (now : Time) (hnow : now ≠ 0) :
    StampsLast (Action.setStatus v :: (mid ++ [Action.setDoneAt now])) := by
  intro j hj
  have hk := kept_both mid ((Action.setStatus v).apply j) hmid
  have hs : ((Action.setStatus v).apply j).Status = v := rfl
  refine ⟨?_, ?_, ?_⟩
  · intro job hjob hne
    rw [jobTrace_cons, List.mem_cons] at hjob
    rcases hjob with e | hmem
    · exact absurd (by rw [e, hj]) hne
    · rcases (mem_jobTrace_append _ job mid _).mp hmem with h1 | h1
      · rw [(hk.1 job h1).2, hs]; exact hv
      · simp only [jobTrace, List.mem_cons, List.mem_singleton, List.not_mem_nil,
          or_false] at h1
        rcases h1 with e | e
        · rw [e, hk.2.2, hs]; exact hv
        · rw [e]
          show isTerminal (jobAfter _ mid).Status = true
          rw [hk.2.2, hs]; exact hv
  · rw [jobAfter_cons, jobAfter_append]
    exact hnow
  · rw [jobAfter_cons, jobAfter_append]
    show isTerminal (jobAfter _ mid).Status = true
    rw [hk.2.2, hs]; exact hv

theorem updateConfigActions_kept (env : PipelineEnv) :
    ∀ a ∈ updateConfigActions env, a.keepsDoneAt = true ∧ a.keepsStatus = true := by
  unfold updateConfigActions
  split
  · simp
  · split
    · simp
    · simp [Action.keepsDoneAt, Action.keepsStatus]

theorem savePlanActions_stampsLast (tfDir : GoString) (env : PipelineEnv)
    (hnow : env.doneNow ≠ 0) : StampsLast (savePlanActions tfDir env) := by
  have ht1 : isTerminal (ascii "error") = true := by decide
  have ht2 : isTerminal (ascii "completed") = true := by decide
  unfold savePlanActions
  dsimp only
  split
  · exact stampsLast_terminal _ ht1 [_] (by simp [Action.keepsDoneAt, Action.keepsStatus])
      _ hnow
  · split
    · exact stampsLast_terminal _ ht1 [_] (by simp [Action.keepsDoneAt, Action.keepsStatus])
        _ hnow
    · have hcore := stampsLast_terminal _ ht2
        [Action.setPhase (ascii "Plan generated successfully"),
          Action.setPlanPath (ascii "examples/terraform-plan.json")]
        (by simp [Action.keepsDoneAt, Action.keepsStatus]) _ hnow
      have hpost := stampsLast_append_kept _
        [Action.removeFile (join tfDir (ascii "tfplan.binary"))]
        (by simp [Action.keepsDoneAt, Action.keepsStatus]) hcore
      rw [List.append_assoc]
      apply stampsLast_prepend _ _ (by simp [Action.keepsDoneAt])
      apply stampsLast_prepend _ _ (fun a ha => (updateConfigActions_kept env a ha).1)
      exact hpost

theorem showActions_stampsLast (tfDir : GoString) (env : PipelineEnv)
    (hnow : env.doneNow ≠ 0) : StampsLast (showActions tfDir env) := by
  have ht1 : isTerminal (ascii "error") = true := by decide
  unfold showActions
  apply stampsLast_prepend _ _ (by simp [Action.keepsDoneAt])
  split
  · exact stampsLast_terminal _ ht1 [_, _] (by simp [Action.keepsDoneAt, Action.keepsStatus])
      _ hnow
  · split
    · exact stampsLast_terminal _ ht1 [_, _]
        (by simp [Action.keepsDoneAt, Action.keepsStatus]) _ hnow
    · exact savePlanActions_stampsLast tfDir env hnow

theorem planActions_stampsLast (tfDir : GoString) (env : PipelineEnv) (buf : GoString)
    (hnow : env.doneNow ≠ 0) : StampsLast (planActions tfDir env buf) := by
  have ht1 : isTerminal (ascii "error") = true := by decide
  unfold planActions
  dsimp only
  apply stampsLast_prepend _ _ (by simp [Action.keepsDoneAt])
  split
  · exact stampsLast_terminal _ ht1 [_, _] (by simp [Action.keepsDoneAt, Action.keepsStatus])
      _ hnow
  · exact showActions_stampsLast tfDir env hnow

theorem runTerraformPipeline_stampsLast (tfDir : GoString) (env : PipelineEnv)
    (hnow : env.doneNow ≠ 0) : StampsLast (runTerraformPipeline tfDir env) := by
  have ht1 : isTerminal (ascii "error") = true := by decide
  unfold runTerraformPipeline
  apply stampsLast_append_kept _ _ (by simp [Action.keepsDoneAt, Action.keepsStatus])
  unfold pipelineBody
  dsimp only
  apply stampsLast_prepend _ _ (by simp [Action.keepsDoneAt])
  split
  · exact stampsLast_terminal _ ht1 [_, _] (by simp [Action.keepsDoneAt, Action.keepsStatus])
      _ hnow
  · exact planActions_stampsLast tfDir env _ hnow

/-- C7 (counterexample): after the accepted trigger and the first four
effects of a pipeline whose `terraform init` fails, the registry job has the
terminal status `error` while its `DoneAt` is still the zero time, although
the clock reading to be stamped is not zero. -/
theorem error_status_before_stamp :
    sampleInitFails.doneNow ≠ 0 ∧
    (registryJobs (pipelineSteps 0 4 sampleHeld)).map (fun job => (job.Status, job.DoneAt))
      = [(ascii "error", 0)] ∧
    isTerminal (ascii "error") = true ∧
    handleTerraformJob (ascii "GET") (ascii "tf-1700000000123")
      (unixEpoch + 1700000002000 * 1000000) (pipelineSteps 0 4 sampleHeld) =
      .jobStatus (ascii "tf-1700000000123") (ascii "error") (ascii "Running terraform init...")
        [] [] 1 (ascii "Initializing...\n") := by
  decide

/-- C7 (amended): along every pipeline run whose stamped clock reading is not
the zero time, in every state of the job record from its creation through
every assignment: a non-zero `DoneAt` implies that `Status` is `completed` or
`error` (so a non-terminal status implies a zero `DoneAt`); at creation
`DoneAt` is zero and the status is not terminal; after the last assignment
`DoneAt` is non-zero and the status is terminal. -/
theorem doneAt_set_only_when_terminal (id tfDir : GoString) (startNow : Time)
    (env : PipelineEnv) (hnow : env.doneNow ≠ 0) :
    (∀ job ∈ jobTrace (newJob id startNow) (runTerraformPipeline tfDir env),
      (job.DoneAt ≠ 0 → isTerminal job.Status = true) ∧
      (isTerminal job.Status = false → job.DoneAt = 0)) ∧
    ((newJob id startNow).DoneAt = 0 ∧ isTerminal (newJob id startNow).Status = false) ∧
    ((jobAfter (newJob id startNow) (runTerraformPipeline tfDir env)).DoneAt ≠ 0 ∧
      isTerminal (jobAfter (newJob id startNow) (runTerraformPipeline tfDir env)).Status
        = true) := by
  have h := runTerraformPipeline_stampsLast tfDir env hnow (newJob id startNow) rfl
  have hpend : isTerminal (ascii "pending") = false := by decide
  refine ⟨?_, ⟨rfl, hpend⟩, h.2⟩
  intro job hjob
  refine ⟨h.1 job hjob, ?_⟩
  intro hnt
  by_contra hne
  have := h.1 job hjob hne
  rw [hnt] at this
  exact Bool.false_ne_true this

/-- C7 (witness): the run in which every stage succeeds. -/
theorem doneAt_set_only_when_terminal_witness :
    sampleAllSucceed.doneNow ≠ 0 ∧
    (jobAfter (newJob (ascii "tf-1") 5)
      (runTerraformPipeline (ascii "terraform") sampleAllSucceed)).DoneAt ≠ 0 ∧
    (jobAfter (newJob (ascii "tf-1") 5)
      (runTerraformPipeline (ascii "terraform") sampleAllSucceed)).Status
        = ascii "completed" :=
  ⟨by decide,
   (doneAt_set_only_when_terminal (ascii "tf-1") (ascii "terraform") 5 sampleAllSucceed
      (by decide)).2.2.1,
   by decide⟩

/-! ## Status sequence -/

theorem statusWrites_append (xs ys : List Action) :
    statusWrites (xs ++ ys) = statusWrites xs ++ statusWrites ys := by
  induction xs with
  | nil => rfl
  | cons a rest ih => cases a <;> simp [statusWrites, ih]

theorem statusWrites_updateConfigActions (env : PipelineEnv) :
    statusWrites (updateConfigActions env) = [] := by
  unfold updateConfigActions
  split
  · rfl
  · split <;> rfl

theorem statusWrites_savePlanActions (tfDir : GoString) (env : PipelineEnv) :
    statusWrites (savePlanActions tfDir env)
      = if saveFails env then [ascii "error"] else [ascii "completed"] := by
  unfold savePlanActions saveFails
  dsimp only
  cases safePath env.envWorkDir env.cwd (ascii "examples/terraform-plan.json") with
  | error e => simp [statusWrites]
  | ok p =>
    cases env.writeErr with
    | some e => simp [statusWrites]
    | none => simp [statusWrites, statusWrites_append, statusWrites_updateConfigActions]

theorem statusWrites_showActions (tfDir : GoString) (env : PipelineEnv) :
    statusWrites (showActions tfDir env)
      = ascii "show" ::
        (if env.showErr.isSome || !env.jsonValid || saveFails env then [ascii "error"]
         else [ascii "completed"]) := by
  unfold showActions
  rw [statusWrites_append]
  cases env.showErr with
  | some e => simp [statusWrites]
  | none =>
    cases env.jsonValid with
    | false => simp [statusWrites]
    | true => simp [statusWrites, statusWrites_savePlanActions]

theorem statusWrites_planActions (tfDir : GoString) (env : PipelineEnv) (buf : GoString) :
    statusWrites (planActions tfDir env buf)
      = ascii "plan" ::
        (if env.planErr.isSome then [ascii "error"]
         else ascii "show" ::
          (if env.showErr.isSome || !env.jsonValid || saveFails env then [ascii "error"]
           else [ascii "completed"])) := by
  unfold planActions
  dsimp only
  rw [statusWrites_append]
  cases env.planErr with
  | some e => simp [statusWrites]
  | none =>
    dsimp only
    rw [statusWrites_showActions]
    simp [statusWrites]

theorem statusWrites_runTerraformPipeline (tfDir : GoString) (env : PipelineEnv) :
    ascii "pending" :: statusWrites (runTerraformPipeline tfDir env)
      = expectedStatuses env := by
  unfold runTerraformPipeline pipelineBody expectedStatuses
  dsimp only
  rw [statusWrites_append, statusWrites_append]
  cases env.initErr with
  | some e => simp [statusWrites]
  | none =>
    dsimp only
    rw [statusWrites_planActions]
    cases env.planErr with
    | some e => simp [statusWrites]
    | none =>
      simp only [statusWrites, Option.isSome_none, Bool.false_eq_true, if_false,
        List.cons_append, List.nil_append, List.append_nil]
      split <;> rfl

theorem finalStatus_eq_getLast (st : GoString) (xs : List Action) :
    (st :: statusWrites xs).getLast? = some (finalStatus st xs) := by
  induction xs generalizing st with
  | nil => simp [statusWrites, finalStatus]
  | cons a rest ih =>
    cases a <;> simp only [statusWrites, finalStatus, ih]
    rw [List.getLast?_cons_cons]
    exact ih _

theorem jobAfter_status (j : TerraformJob) (xs : List Action) :
    (jobAfter j xs).Status = finalStatus j.Status xs := by
  induction xs generalizing j with
  | nil => rfl
  | cons a rest ih =>
    rw [jobAfter_cons, ih, finalStatus_cons]

/-- C8: in every pipeline run the values taken by `Status` are, in order,
`pending, init, error` when init fails; `pending, init, plan, error` when
init succeeds and plan fails; `pending, init, plan, show, error` when both
succeed and the show stage fails; `pending, init, plan, show, completed`
when everything succeeds; the last of them is the status the job keeps. -/
theorem status_sequence (id tfDir : GoString) (startNow : Time) (env : PipelineEnv) :
    (newJob id startNow).Status :: statusWrites (runTerraformPipeline tfDir env)
      = expectedStatuses env ∧
    (expectedStatuses env).getLast? =
      some (jobAfter (newJob id startNow) (runTerraformPipeline tfDir env)).Status ∧
    (expectedStatuses env = [ascii "pending", ascii "init", ascii "error"] ∨
     expectedStatuses env = [ascii "pending", ascii "init", ascii "plan", ascii "error"] ∨
     expectedStatuses env
       = [ascii "pending", ascii "init", ascii "plan", ascii "show", ascii "error"] ∨
     expectedStatuses env
       = [ascii "pending", ascii "init", ascii "plan", ascii "show", ascii "completed"]) := by
  have hseq := statusWrites_runTerraformPipeline tfDir env
  refine ⟨hseq, ?_, ?_⟩
  · rw [← hseq, jobAfter_status]
    exact finalStatus_eq_getLast _ _
  · unfold expectedStatuses
    split
    · exact Or.inl rfl
    · split
      · exact Or.inr (Or.inl rfl)
      · split
        · exact Or.inr (Or.inr (Or.inl rfl))
        · exact Or.inr (Or.inr (Or.inr rfl))

/-! ## Registry sweep -/

theorem cutoff_eq (now : Int) : now + -1 * hour = now - hour := by ring

theorem sweepDeletes_iff (now : Time) (job : TerraformJob) :
    sweepDeletes (now + -1 * hour) job = true ↔ job.DoneAt ≠ 0 ∧ job.DoneAt < now - hour := by
  rw [cutoff_eq]
  simp [sweepDeletes, isZero, before]

theorem mem_sweep_iff (now : Time) (s : ServerState) (e : GoString × Nat) :
    e ∈ (sweep now s).tfJobs ↔
      e ∈ s.tfJobs ∧
        ¬ ∃ job, s.heap[e.2]? = some job ∧ job.DoneAt ≠ 0 ∧ job.DoneAt < now - hour := by
  unfold sweep
  simp only [List.mem_filter]
  constructor
  · rintro ⟨hmem, hkeep⟩
    refine ⟨hmem, ?_⟩
    rintro ⟨job, hjob, hne, hlt⟩
    have hdel := (sweepDeletes_iff now job).mpr ⟨hne, hlt⟩
    simp only [hjob, hdel] at hkeep
    exact Bool.noConfusion hkeep
  · rintro ⟨hmem, hno⟩
    refine ⟨hmem, ?_⟩
    cases hjob : s.heap[e.2]? with
    | none => rfl
    | some job =>
      cases hdel : sweepDeletes (now + -1 * hour) job with
      | false => simp only [hdel]; rfl
      | true => exact absurd ⟨job, hjob, (sweepDeletes_iff now job).mp hdel⟩ hno

/-- C9 (counterexample): a sweep more than an hour after the requests, run
when the pipeline has assigned the status `error` and not yet stamped
`DoneAt`: the registry job is terminal and its `DoneAt` (the zero time) lies
more than an hour before now, yet the sweep keeps it. -/
theorem sweep_keeps_unstamped_terminal :
    (registryJobs sampleUnstamped).map (fun job => (job.Status, job.DoneAt))
      = [(ascii "error", 0)] ∧
    isTerminal (ascii "error") = true ∧
    before 0 (sampleLater - hour) = true ∧
    (sweep sampleLater sampleUnstamped).tfJobs = sampleUnstamped.tfJobs ∧
    (sweep sampleLater sampleUnstamped).tfJobs = [(ascii "tf-1700000000123", 0)] := by
  decide

/-- C9 (amended): one pass of the sweep removes a registry entry if and only
if the `DoneAt` of its job is non-zero and more than one hour before now; a
job whose `DoneAt` is zero is kept whatever its status and however old its
`StartedAt`; for a job whose `DoneAt` is zero exactly when it is not terminal
this is: removed if and only if terminal and `DoneAt` more than one hour
before now; the kept entries keep their order, and the job records, the gate
and the launched pipelines are unchanged. -/
theorem sweep_removes_iff (now : Time) (s : ServerState) :
    (∀ e, e ∈ (sweep now s).tfJobs ↔
      e ∈ s.tfJobs ∧
        ¬ ∃ job, s.heap[e.2]? = some job ∧ job.DoneAt ≠ 0 ∧ job.DoneAt < now - hour) ∧
    (∀ e ∈ s.tfJobs, ∀ job, s.heap[e.2]? = some job → job.DoneAt = 0 →
      e ∈ (sweep now s).tfJobs) ∧
    (∀ e ∈ s.tfJobs, ∀ job, s.heap[e.2]? = some job →
      (job.DoneAt = 0 ↔ isTerminal job.Status = false) →
      (e ∉ (sweep now s).tfJobs ↔
        isTerminal job.Status = true ∧ job.DoneAt < now - hour)) ∧
    (sweep now s).tfJobs.Sublist s.tfJobs ∧
    (sweep now s).heap = s.heap ∧
    (sweep now s).tfMutex = s.tfMutex ∧
    (sweep now s).running = s.running := by
  refine ⟨mem_sweep_iff now s, ?_, ?_, List.filter_sublist _, rfl, rfl, rfl⟩
  · intro e he job hjob hz
    rw [mem_sweep_iff]
    refine ⟨he, ?_⟩
    rintro ⟨job2, hjob2, hne, _⟩
    rw [hjob] at hjob2
    cases hjob2
    exact hne hz
  · intro e he job hjob hiff
    rw [mem_sweep_iff]
    constructor
    · intro hnot
      by_contra hcon
      apply hnot
      refine ⟨he, ?_⟩
      rintro ⟨job2, hjob2, hne, hlt⟩
      rw [hjob] at hjob2
      cases hjob2
      apply hcon
      refine ⟨?_, hlt⟩
      cases ht : isTerminal job.Status with
      | true => rfl
      | false => exact absurd (hiff.mpr ht) hne
    · rintro ⟨hterm, hlt⟩ ⟨_, hno⟩
      apply hno
      refine ⟨job, hjob, ?_, hlt⟩
      intro hz
      have := hiff.mp hz
      rw [hterm] at this
      exact Bool.noConfusion this

/-! ## Job identifiers -/

theorem foldl_natDigits (fuel n : Nat) (acc : GoString) (h : n < fuel) :
    (natDigits fuel n acc).foldl (fun a d => 10 * a + (d - 48)) 0
      = acc.foldl (fun a d => 10 * a + (d - 48)) n := by
  induction fuel generalizing n acc with
  | zero => omega
  | succ fuel ih =>
    unfold natDigits
    split
    · simp
    · rename_i hn
      rw [ih (n / 10) _ (by omega)]
      have e : 10 * (n / 10) + (48 + n % 10 - 48) = n := by omega
      rw [List.foldl_cons, e]

theorem parseNat_formatNat (n : Nat) : parseNat (formatNat n) = n := by
  unfold parseNat formatNat
  rw [foldl_natDigits (n + 1) n [] (by omega)]
  rfl

theorem natDigits_head (fuel n : Nat) (acc : GoString) (h : n < fuel) :
    ∃ d rest, natDigits fuel n acc = d :: rest ∧ 48 ≤ d := by
  induction fuel generalizing n acc with
  | zero => omega
  | succ fuel ih =>
    unfold natDigits
    split
    · exact ⟨48 + n, acc, rfl, by omega⟩
    · exact ih (n / 10) _ (by omega)

/-- Reading back the decimal text of an integer gives the integer. -/
theorem parseInt_formatInt (i : Int) : parseInt (formatInt i) = i := by
  unfold formatInt
  split
  · rename_i hneg
    simp only [parseInt, if_true, parseNat_formatNat]
    omega
  · rename_i hpos
    obtain ⟨d, rest, hd, hge⟩ := natDigits_head (i.natAbs + 1) i.natAbs [] (by omega)
    have hf : formatNat i.natAbs = d :: rest := hd
    have h45 : d ≠ 45 := by omega
    have hp := parseNat_formatNat i.natAbs
    rw [hf] at hp ⊢
    simp only [parseInt, h45, if_false, hp]
    omega

theorem jobID_injective (a b : Int) (h : jobID a = jobID b) : a = b := by
  unfold jobID at h
  have h2 := List.append_cancel_left h
  rw [← parseInt_formatInt a, ← parseInt_formatInt b, h2]

theorem mem_mapInsert_of_ne (m : List (GoString × Nat)) (id : GoString) (ptr : Nat)
    (e : GoString × Nat) (he : e ∈ m) (hne : e.1 ≠ id) : e ∈ mapInsert m id ptr := by
  unfold mapInsert
  exact List.mem_append_left _ (List.mem_filter.mpr ⟨he, by simpa using hne⟩)

/-- C10 (counterexample): a first trigger is accepted, its pipeline returns
(`terraform init` failed), and a second trigger is accepted at a clock
reading in the same Unix millisecond: both jobs get the same id and the
registry entry of the first job is replaced by the second. -/
theorem same_millisecond_same_id :
    (handleTerraformPlan (sampleTrigger sampleInitFails) ServerState.init).1
      = .json [(ascii "status", ascii "started"), (ascii "job_id", ascii "tf-1700000000123")] ∧
    sampleReturned.tfMutex = false ∧
    sampleReturned.tfJobs = [(ascii "tf-1700000000123", 0)] ∧
    (handleTerraformPlan (sampleTrigger sampleAllSucceed) sampleReturned).1
      = .json [(ascii "status", ascii "started"), (ascii "job_id", ascii "tf-1700000000123")] ∧
    (handleTerraformPlan (sampleTrigger sampleAllSucceed) sampleReturned).2.heap.map
      (fun job => job.ID) = [ascii "tf-1700000000123", ascii "tf-1700000000123"] ∧
    (handleTerraformPlan (sampleTrigger sampleAllSucceed) sampleReturned).2.tfJobs
      = [(ascii "tf-1700000000123", 1)] := by
  decide

/-- C10 (amended): the job id is `tf-` followed by the Unix millisecond of
the clock reading, so two jobs get the same id exactly when their clock
readings fall in the same millisecond; an accepted trigger request keeps
every registry entry whose id differs from the new one, hence every entry
minted in another millisecond, and leaves the earlier job records as they are. -/
theorem jobID_unique_per_millisecond (env : TriggerEnv) (s : ServerState)
    (hm : env.method = ascii "POST") (hfree : s.tfMutex = false) (hp : preconditionsMet env) :
    (∀ t1 t2 : Time, jobID (unixMilli t1) = jobID (unixMilli t2) ↔ unixMilli t1 = unixMilli t2) ∧
    (handleTerraformPlan env s).1 = startedResponse env ∧
    (∀ e ∈ s.tfJobs, e.1 ≠ jobID (unixMilli env.idNow) →
      e ∈ (handleTerraformPlan env s).2.tfJobs) ∧
    (∀ e ∈ s.tfJobs, ∀ t : Time, e.1 = jobID (unixMilli t) →
      unixMilli t ≠ unixMilli env.idNow → e ∈ (handleTerraformPlan env s).2.tfJobs) ∧
    (jobID (unixMilli env.idNow), s.heap.length) ∈ (handleTerraformPlan env s).2.tfJobs ∧
    (∀ (p : Nat) (job : TerraformJob), s.heap[p]? = some job →
      (handleTerraformPlan env s).2.heap[p]? = some job) := by
  have hacc := handleTerraformPlan_accepted env s hm hfree hp
  have hkeep : ∀ e ∈ s.tfJobs, e.1 ≠ jobID (unixMilli env.idNow) →
      e ∈ (handleTerraformPlan env s).2.tfJobs := by
    intro e he hne
    rw [hacc]
    exact mem_mapInsert_of_ne _ _ _ e he hne
  refine ⟨?_, by rw [hacc], hkeep, ?_, ?_, ?_⟩
  · intro t1 t2
    exact ⟨jobID_injective _ _, fun h => by rw [h]⟩
  · intro e he t het hne
    apply hkeep e he
    rw [het]
    exact fun h => hne (jobID_injective _ _ h)
  · rw [hacc]
    show _ ∈ mapInsert s.tfJobs _ _
    unfold mapInsert
    exact List.mem_append_right _ (by simp)
  · intro p job hjob
    rw [hacc]
    show (s.heap ++ [_])[p]? = some job
    rw [List.getElem?_append_left (List.getElem?_eq_some.mp hjob).1]
    exact hjob

/-- C10 (witness): a second trigger one millisecond after the first, once the
first pipeline has returned: both registry entries are present. -/
theorem jobID_unique_per_millisecond_witness :
    (handleTerraformPlan
      { sampleTrigger sampleAllSucceed with idNow := unixEpoch + 1700000000124 * 1000000 }
      sampleReturned).2.tfJobs
      = [(ascii "tf-1700000000123", 0), (ascii "tf-1700000000124", 1)] ∧
    (ascii "tf-1700000000123", 0) ∈ (handleTerraformPlan
      { sampleTrigger sampleAllSucceed with idNow := unixEpoch + 1700000000124 * 1000000 }
      sampleReturned).2.tfJobs :=
  ⟨by decide,
   (jobID_unique_per_millisecond
      { sampleTrigger sampleAllSucceed with idNow := unixEpoch + 1700000000124 * 1000000 }
      sampleReturned (by decide) (by decide)
      ⟨[ascii "main.tf"], by decide, ascii "main.tf", by decide, by decide⟩).2.2.1
      (ascii "tf-1700000000123", 0) (by decide) (by decide)⟩

/-! ## Output log -/

theorem outputWrites_append (xs ys : List Action) :
    outputWrites (xs ++ ys) = outputWrites xs ++ outputWrites ys := by
  induction xs with
  | nil => rfl
  | cons a rest ih => cases a <;> simp [outputWrites, ih]

theorem outputWrites_updateConfigActions (env : PipelineEnv) :
    outputWrites (updateConfigActions env) = [] := by
  unfold updateConfigActions
  split
  · rfl
  · split <;> rfl

theorem outputWrites_savePlanActions (tfDir : GoString) (env : PipelineEnv) :
    outputWrites (savePlanActions tfDir env) = [] := by
  unfold savePlanActions
  dsimp only
  split
  · rfl
  · split
    · rfl
    · rw [outputWrites_append, outputWrites_append, outputWrites_updateConfigActions]
      rfl

theorem outputWrites_showActions (tfDir : GoString) (env : PipelineEnv) :
    outputWrites (showActions tfDir env) = [] := by
  unfold showActions
  rw [outputWrites_append]
  split
  · rfl
  · split
    · rfl
    · rw [outputWrites_savePlanActions]; rfl

theorem outputWrites_planActions (tfDir : GoString) (env : PipelineEnv) (buf : GoString) :
    outputWrites (planActions tfDir env buf) = [buf ++ env.planOutput ++ [10]] := by
  unfold planActions
  dsimp only
  rw [outputWrites_append]
  split
  · rfl
  · rw [outputWrites_showActions]; rfl

theorem outputWrites_runTerraformPipeline (tfDir : GoString) (env : PipelineEnv) :
    [] :: outputWrites (runTerraformPipeline tfDir env) = expectedOutputs env := by
  unfold runTerraformPipeline pipelineBody expectedOutputs
  dsimp only
  rw [outputWrites_append, outputWrites_append]
  cases env.initErr with
  | some e => rfl
  | none =>
    dsimp only
    rw [outputWrites_planActions]
    rfl

theorem finalOutput_eq_getLast (out : GoString) (xs : List Action) :
    (out :: outputWrites xs).getLast? = some (finalOutput out xs) := by
  induction xs generalizing out with
  | nil => simp [outputWrites, finalOutput]
  | cons a rest ih =>
    cases a <;> simp only [outputWrites, finalOutput, ih]
    rw [List.getLast?_cons_cons]
    exact ih _

theorem finalOutput_cons (a : Action) (rest : List Action) (job : TerraformJob) :
    finalOutput job.Output (a :: rest) = finalOutput (a.apply job).Output rest := by
  cases a <;> rfl

theorem jobAfter_output (j : TerraformJob) (xs : List Action) :
    (jobAfter j xs).Output = finalOutput j.Output xs := by
  induction xs generalizing j with
  | nil => rfl
  | cons a rest ih => rw [jobAfter_cons, ih, finalOutput_cons]

theorem mem_jobTrace_output (j job : TerraformJob) (xs : List Action)
    (h : job ∈ jobTrace j xs) : job.Output ∈ j.Output :: outputWrites xs := by
  induction xs generalizing j with
  | nil =>
    have e : job = j := by simpa [jobTrace] using h
    rw [e]; simp
  | cons a rest ih =>
    rw [jobTrace_cons, List.mem_cons] at h
    rcases h with e | hmem
    · rw [e]; simp
    · have h2 := ih (a.apply j) hmem
      cases a <;>
        first
        | (simp only [outputWrites, Action.apply, List.mem_cons] at h2 ⊢
           rcases h2 with h3 | h3
           · exact Or.inr (Or.inl h3)
           · exact Or.inr (Or.inr h3))
        | (simp only [outputWrites, Action.apply, List.mem_cons] at h2 ⊢
           exact h2)

/-- C12: in every pipeline run the values taken by `Output` are, in order,
the empty text of the new job, the init output followed by a newline (also
when init failed) and, when init succeeded, that followed by the plan output
and a newline (also when plan failed); each value has the previous one as a
prefix, the show output is never appended, every state of the record shows
one of these values and the last one is the output the job keeps. -/
theorem output_only_grows (id tfDir : GoString) (startNow : Time) (env : PipelineEnv) :
    (newJob id startNow).Output :: outputWrites (runTerraformPipeline tfDir env)
      = expectedOutputs env ∧
    List.Chain' (fun a b => a <+: b) (expectedOutputs env) ∧
    (∀ job ∈ jobTrace (newJob id startNow) (runTerraformPipeline tfDir env),
      job.Output ∈ expectedOutputs env) ∧
    (expectedOutputs env).getLast? =
      some (jobAfter (newJob id startNow) (runTerraformPipeline tfDir env)).Output ∧
    (env.initErr ≠ none →
      (jobAfter (newJob id startNow) (runTerraformPipeline tfDir env)).Output
        = env.initOutput ++ [10]) ∧
    (env.initErr = none →
      (jobAfter (newJob id startNow) (runTerraformPipeline tfDir env)).Output
        = env.initOutput ++ [10] ++ env.planOutput ++ [10]) := by
  have hseq := outputWrites_runTerraformPipeline tfDir env
  have hlast : (expectedOutputs env).getLast? =
      some (jobAfter (newJob id startNow) (runTerraformPipeline tfDir env)).Output := by
    rw [← hseq, jobAfter_output]
    exact finalOutput_eq_getLast _ _
  refine ⟨hseq, ?_, ?_, hlast, ?_, ?_⟩
  · unfold expectedOutputs
    split
    · simp
    · simp [List.append_assoc]
  · intro job hjob
    rw [← hseq]
    exact mem_jobTrace_output _ job _ hjob
  · intro hne
    have hs : env.initErr.isSome = true := by
      cases h : env.initErr with
      | none => exact absurd h hne
      | some e => rfl
    simp only [expectedOutputs, hs, if_true] at hlast
    simpa using hlast.symm
  · intro hn
    simp only [expectedOutputs, hn, Option.isSome_none, Bool.false_eq_true, if_false] at hlast
    simpa using hlast.symm

/-! ## Splitting and joining -/

theorem splitByte_ne_nil (c : Nat) (s : GoString) : splitByte c s ≠ [] := by
  cases s with
  | nil => simp [splitByte]
  | cons b rest =>
    unfold splitByte
    split
    · simp
    · split <;> simp

theorem splitByte_cons_ne (c b : Nat) (rest : GoString) (h : b ≠ c) :
    ∃ x xs, splitByte c rest = x :: xs ∧ splitByte c (b :: rest) = (b :: x) :: xs := by
  cases hs : splitByte c rest with
  | nil => exact absurd hs (splitByte_ne_nil c rest)
  | cons x xs =>
    refine ⟨x, xs, rfl, ?_⟩
    rw [splitByte, if_neg h, hs]

theorem splitByte_cons_eq (c : Nat) (rest : GoString) :
    splitByte c (c :: rest) = [] :: splitByte c rest := by
  rw [splitByte, if_pos rfl]

theorem not_mem_of_mem_splitByte (c : Nat) (s e : GoString) (h : e ∈ splitByte c s) :
    c ∉ e := by
  induction s generalizing e with
  | nil =>
    have : e = [] := by simpa [splitByte] using h
    rw [this]; simp
  | cons b rest ih =>
    by_cases hb : b = c
    · subst hb
      rw [splitByte_cons_eq, List.mem_cons] at h
      rcases h with h | h
      · rw [h]; simp
      · exact ih e h
    · obtain ⟨x, xs, hx, hbx⟩ := splitByte_cons_ne c b rest hb
      rw [hbx, List.mem_cons] at h
      rcases h with h | h
      · rw [h]
        intro hmem
        rcases List.mem_cons.mp hmem with h1 | h1
        · exact hb h1.symm
        · exact ih x (by rw [hx]; simp) h1
      · exact ih e (by rw [hx]; simp [h])

/-- Splitting a text at a separator byte splits each side of it. -/
theorem splitByte_append_sep (c : Nat) (a b : GoString) :
    splitByte c (a ++ c :: b) = splitByte c a ++ splitByte c b := by
  induction a with
  | nil => rw [List.nil_append, splitByte_cons_eq]; rfl
  | cons x a ih =>
    by_cases hx : x = c
    · subst hx
      rw [List.cons_append, splitByte_cons_eq, splitByte_cons_eq, ih, List.cons_append]
    · obtain ⟨h1, t1, e1, e2⟩ := splitByte_cons_ne c x a hx
      obtain ⟨h2, t2, e3, e4⟩ := splitByte_cons_ne c x (a ++ c :: b) hx
      rw [List.cons_append, e4, e2]
      rw [ih, e1, List.cons_append] at e3
      cases e3
      rfl

theorem splitByte_of_not_mem (c : Nat) (s : GoString) (h : c ∉ s) : splitByte c s = [s] := by
  induction s with
  | nil => rfl
  | cons b rest ih =>
    have hb : b ≠ c := fun e => h (by simp [e])
    have hr : c ∉ rest := fun e => h (by simp [e])
    obtain ⟨x, xs, e1, e2⟩ := splitByte_cons_ne c b rest hb
    rw [ih hr] at e1
    cases e1
    exact e2

theorem intercalate_cons_cons (c : Nat) (l l2 : GoString) (rest : List GoString) :
    [c].intercalate (l :: l2 :: rest) = l ++ c :: [c].intercalate (l2 :: rest) := by
  simp [List.intercalate, List.intersperse]

theorem intercalate_singleton (c : Nat) (l : GoString) : [c].intercalate [l] = l := by
  simp [List.intercalate, List.intersperse]

/-- Splitting the join of separator-free pieces gives the pieces back. -/
theorem splitByte_intercalate (c : Nat) (ls : List GoString) (hne : ls ≠ [])
    (h : ∀ l ∈ ls, c ∉ l) : splitByte c ([c].intercalate ls) = ls := by
  induction ls with
  | nil => exact absurd rfl hne
  | cons l rest ih =>
    cases rest with
    | nil =>
      rw [intercalate_singleton]
      exact splitByte_of_not_mem c l (h l (by simp))
    | cons l2 rest2 =>
      rw [intercalate_cons_cons, splitByte_append_sep,
        splitByte_of_not_mem c l (h l (by simp)),
        ih (by simp) (fun x hx => h x (by simp [hx]))]
      rfl

/-! ## Configuration update -/

theorem replacePlanPath_cons_match (newLine line : GoString) (rest : List GoString)
    (h : isPlanPathLine line = true) :
    replacePlanPath newLine (line :: rest) = (newLine :: rest, true) := by
  unfold isPlanPathLine at h
  rw [replacePlanPath, if_pos h]

theorem replacePlanPath_cons_other (newLine line : GoString) (rest : List GoString)
    (h : isPlanPathLine line = false) :
    replacePlanPath newLine (line :: rest)
      = (line :: (replacePlanPath newLine rest).1, (replacePlanPath newLine rest).2) := by
  unfold isPlanPathLine at h
  rw [replacePlanPath, if_neg (by rw [h]; simp)]

/-- When line `i` is the first `plan_path:` line, the loop replaces it and
sets the flag. -/
theorem replacePlanPath_of_first (newLine : GoString) (ls : List GoString) (i : Nat)
    (line : GoString) (hi : ls[i]? = some line) (hm : isPlanPathLine line = true)
    (hfirst : ∀ k l, k < i → ls[k]? = some l → isPlanPathLine l = false) :
    replacePlanPath newLine ls = (ls.set i newLine, true) := by
  induction ls generalizing i with
  | nil => simp at hi
  | cons l rest ih =>
    cases i with
    | zero =>
      have e : l = line := by simpa using hi
      subst e
      rw [replacePlanPath_cons_match newLine l rest hm]
      rfl
    | succ k =>
      have hl : isPlanPathLine l = false := hfirst 0 l (Nat.succ_pos k) (by simp)
      have hk : rest[k]? = some line := by simpa using hi
      have hf : ∀ m x, m < k → rest[m]? = some x → isPlanPathLine x = false := by
        intro m x hmk hx
        exact hfirst (m + 1) x (Nat.succ_lt_succ hmk) (by simpa using hx)
      rw [replacePlanPath_cons_other newLine l rest hl, ih k hk hf]
      rfl

/-- When no line is a `plan_path:` line, the loop changes nothing and leaves
the flag unset. -/
theorem replacePlanPath_of_none (newLine : GoString) (ls : List GoString)
    (h : ∀ l ∈ ls, isPlanPathLine l = false) : replacePlanPath newLine ls = (ls, false) := by
  induction ls with
  | nil => rfl
  | cons l rest ih =>
    rw [replacePlanPath_cons_other newLine l rest (h l (by simp)),
      ih (fun x hx => h x (by simp [hx]))]

theorem mem_replacePlanPath (newLine : GoString) (ls : List GoString) (l : GoString)
    (h : l ∈ (replacePlanPath newLine ls).1) : l = newLine ∨ l ∈ ls := by
  induction ls with
  | nil => simp [replacePlanPath] at h
  | cons x rest ih =>
    cases hx : isPlanPathLine x with
    | true =>
      rw [replacePlanPath_cons_match newLine x rest hx] at h
      rcases List.mem_cons.mp h with h1 | h1
      · exact Or.inl h1
      · exact Or.inr (List.mem_cons_of_mem _ h1)
    | false =>
      rw [replacePlanPath_cons_other newLine x rest hx] at h
      rcases List.mem_cons.mp h with h1 | h1
      · exact Or.inr (by rw [h1]; simp)
      · rcases ih h1 with h2 | h2
        · exact Or.inl h2
        · exact Or.inr (List.mem_cons_of_mem _ h2)

/-- The lines written back: the result of the loop, with the new line
appended when the flag is unset. -/
theorem updatedLines_fixed (newLine : GoString) (hnew : isPlanPathLine newLine = true)
    (ls : List GoString) :
    replacePlanPath newLine
        (if (replacePlanPath newLine ls).2 then (replacePlanPath newLine ls).1
         else (replacePlanPath newLine ls).1 ++ [newLine])
      = ((if (replacePlanPath newLine ls).2 then (replacePlanPath newLine ls).1
          else (replacePlanPath newLine ls).1 ++ [newLine]), true) := by
  induction ls with
  | nil =>
    simp only [replacePlanPath, Bool.false_eq_true, if_false, List.nil_append]
    exact replacePlanPath_cons_match newLine newLine [] hnew
  | cons x rest ih =>
    cases hx : isPlanPathLine x with
    | true =>
      rw [replacePlanPath_cons_match newLine x rest hx]
      simp only [if_true]
      exact replacePlanPath_cons_match newLine newLine rest hnew
    | false =>
      rw [replacePlanPath_cons_other newLine x rest hx]
      dsimp only
      cases hr : (replacePlanPath newLine rest).2 with
      | true =>
        rw [hr] at ih
        simp only [if_true] at ih ⊢
        rw [replacePlanPath_cons_other newLine x _ hx, ih]
      | false =>
        rw [hr] at ih
        simp only [Bool.false_eq_true, if_false] at ih ⊢
        rw [List.cons_append, replacePlanPath_cons_other newLine x _ hx, ih]

theorem updateConfig_eq (newLine data : GoString) :
    updateConfig newLine data
      = [10].intercalate
          (if (replacePlanPath newLine (splitByte 10 data)).2
           then (replacePlanPath newLine (splitByte 10 data)).1
           else (replacePlanPath newLine (splitByte 10 data)).1 ++ [newLine]) := rfl

/-- The lines of the updated text are the lines written back. -/
theorem splitByte_updateConfig (newLine : GoString) (hnl : 10 ∉ newLine) (data : GoString) :
    splitByte 10 (updateConfig newLine data)
      = if (replacePlanPath newLine (splitByte 10 data)).2
        then (replacePlanPath newLine (splitByte 10 data)).1
        else (replacePlanPath newLine (splitByte 10 data)).1 ++ [newLine] := by
  unfold updateConfig
  dsimp only
  have hmem : ∀ l ∈ (replacePlanPath newLine (splitByte 10 data)).1, 10 ∉ l := by
    intro l hl
    rcases mem_replacePlanPath newLine _ l hl with h1 | h1
    · rw [h1]; exact hnl
    · exact not_mem_of_mem_splitByte 10 data l h1
  apply splitByte_intercalate
  · split
    · intro hnil
      rename_i hflag
      cases hs : splitByte 10 data with
      | nil => exact splitByte_ne_nil 10 data hs
      | cons x rest =>
        rw [hs] at hnil hflag
        cases hx : isPlanPathLine x with
        | true => rw [replacePlanPath_cons_match newLine x rest hx] at hnil; simp at hnil
        | false => rw [replacePlanPath_cons_other newLine x rest hx] at hnil; simp at hnil
    · simp
  · intro l hl
    split at hl
    · exact hmem l hl
    · rcases List.mem_append.mp hl with h1 | h1
      · exact hmem l h1
      · have : l = newLine := by simpa using h1
        rw [this]; exact hnl

theorem planPathLine_facts : isPlanPathLine planPathLine = true ∧ 10 ∉ planPathLine := by
  decide

/-- C13: the lines of the configuration text after the update are the
original lines with the first line that, trimmed, starts with `plan_path:`
replaced by `plan_path: ./examples/terraform-plan.json`, or with that line
appended when no line does; the other lines keep their content and order;
updating the updated text changes nothing; this is the text the pipeline
writes back. -/
theorem updateConfig_lines (data : GoString) :
    (∀ (i : Nat) (line : GoString), (splitByte 10 data)[i]? = some line →
      isPlanPathLine line = true →
      (∀ k l, k < i → (splitByte 10 data)[k]? = some l → isPlanPathLine l = false) →
      splitByte 10 (updateConfig planPathLine data)
        = (splitByte 10 data).set i planPathLine) ∧
    ((∀ l ∈ splitByte 10 data, isPlanPathLine l = false) →
      splitByte 10 (updateConfig planPathLine data) = splitByte 10 data ++ [planPathLine]) ∧
    updateConfig planPathLine (updateConfig planPathLine data)
      = updateConfig planPathLine data ∧
    (∀ (env : PipelineEnv) (path : GoString),
      safePath env.envWorkDir env.cwd (ascii "config/cloudrift.yml") = .ok path →
      env.configData = some data →
      updateConfigActions env = [.writeFile path (updateConfig planPathLine data)]) ∧
    updateConfig planPathLine (ascii "region: us-east-1\n  plan_path: old.json\nplan_path: x\n")
      = ascii "region: us-east-1\nplan_path: ./examples/terraform-plan.json\nplan_path: x\n" ∧
    updateConfig planPathLine (ascii "region: us-east-1")
      = ascii "region: us-east-1\nplan_path: ./examples/terraform-plan.json" := by
  have hsplit := splitByte_updateConfig planPathLine planPathLine_facts.2 data
  refine ⟨?_, ?_, ?_, ?_, by decide, by decide⟩
  · intro i line hi hm hfirst
    rw [hsplit, replacePlanPath_of_first planPathLine _ i line hi hm hfirst]
    rfl
  · intro hnone
    rw [hsplit, replacePlanPath_of_none planPathLine _ hnone]
    rfl
  · have hfix := updatedLines_fixed planPathLine planPathLine_facts.1 (splitByte 10 data)
    rw [← hsplit] at hfix
    have hdef : updateConfig planPathLine data
        = [10].intercalate (splitByte 10 (updateConfig planPathLine data)) := by
      rw [hsplit]; rfl
    have hstep : updateConfig planPathLine (updateConfig planPathLine data)
        = [10].intercalate (splitByte 10 (updateConfig planPathLine data)) := by
      rw [updateConfig_eq planPathLine (updateConfig planPathLine data), hfix]
      rfl
    rw [hstep, ← hdef]
  · intro env path hpath hdata
    unfold updateConfigActions
    rw [hpath, hdata]
    rfl

/-! ## Path cleaning -/

theorem cleanElems_skip (r : Bool) (out : List GoString) (e : GoString) (es : List GoString)
    (h : e = [] ∨ e = dot) : cleanElems r out (e :: es) = cleanElems r out es := by
  rw [cleanElems, if_pos h]

theorem cleanElems_push (r : Bool) (out : List GoString) (e : GoString) (es : List GoString)
    (h : isNormalElem e) : cleanElems r out (e :: es) = cleanElems r (e :: out) es := by
  rw [cleanElems, if_neg (by rintro (h1 | h1); exact h.1 h1; exact h.2.1 h1), if_neg h.2.2]

theorem cleanElems_dotdot (r : Bool) (out : List GoString) (es : List GoString) :
    cleanElems r out (dotdot :: es) =
      if canBacktrack out then cleanElems r out.tail es
      else if r then cleanElems r out es
      else cleanElems r (dotdot :: out) es := by
  rw [cleanElems, if_neg (by decide), if_pos rfl]

theorem elem_cases (e : GoString) : (e = [] ∨ e = dot) ∨ e = dotdot ∨ isNormalElem e := by
  by_cases h1 : e = []
  · exact Or.inl (Or.inl h1)
  · by_cases h2 : e = dot
    · exact Or.inl (Or.inr h2)
    · by_cases h3 : e = dotdot
      · exact Or.inr (Or.inl h3)
      · exact Or.inr (Or.inr ⟨h1, h2, h3⟩)

/-- Cleaning a concatenation continues from the stack left by the first part. -/
theorem cleanElems_append (r : Bool) (out : List GoString) (es1 es2 : List GoString) :
    cleanElems r out (es1 ++ es2) = cleanElems r (cleanElems r out es1).reverse es2 := by
  induction es1 generalizing out with
  | nil => simp [cleanElems]
  | cons e es ih =>
    rw [List.cons_append]
    rcases elem_cases e with h | h | h
    · rw [cleanElems_skip r out e _ h, cleanElems_skip r out e _ h, ih]
    · subst h
      rw [cleanElems_dotdot, cleanElems_dotdot]
      split
      · exact ih _
      · split
        · exact ih _
        · exact ih _
    · rw [cleanElems_push r out e _ h, cleanElems_push r out e _ h, ih]

/-- Without `..` elements the loop keeps the stack and appends the elements
other than the empty one and `.`. -/
theorem cleanElems_noDotDot (r : Bool) (out : List GoString) (es : List GoString)
    (h : dotdot ∉ es) :
    cleanElems r out es = out.reverse ++ es.filter (fun e => decide (e ≠ [] ∧ e ≠ dot)) := by
  induction es generalizing out with
  | nil => simp [cleanElems]
  | cons e es ih =>
    have hes : dotdot ∉ es := fun hm => h (List.mem_cons_of_mem _ hm)
    rcases elem_cases e with h1 | h1 | h1
    · rw [cleanElems_skip r out e _ h1, ih out hes, List.filter_cons_of_neg]
      rcases h1 with h1 | h1 <;> simp [h1]
    · exact absurd (by rw [h1]; simp) h
    · rw [cleanElems_push r out e _ h1, ih _ hes, List.filter_cons_of_pos]
      · simp
      · simp [h1.1, h1.2.1]

/-- What the output of the loop consists of. -/
theorem mem_cleanElems (r : Bool) (out es : List GoString) (x : GoString)
    (h : x ∈ cleanElems r out es) :
    x ∈ out ∨ (r = false ∧ x = dotdot) ∨ (x ∈ es ∧ isNormalElem x) := by
  induction es generalizing out with
  | nil => exact Or.inl (by simpa [cleanElems] using h)
  | cons e es ih =>
    rcases elem_cases e with h1 | h1 | h1
    · rw [cleanElems_skip r out e _ h1] at h
      rcases ih out h with h2 | h2 | h2
      · exact Or.inl h2
      · exact Or.inr (Or.inl h2)
      · exact Or.inr (Or.inr ⟨List.mem_cons_of_mem _ h2.1, h2.2⟩)
    · subst h1
      rw [cleanElems_dotdot] at h
      split at h
      · rcases ih _ h with h2 | h2 | h2
        · exact Or.inl (List.mem_of_mem_tail h2)
        · exact Or.inr (Or.inl h2)
        · exact Or.inr (Or.inr ⟨List.mem_cons_of_mem _ h2.1, h2.2⟩)
      · split at h
        · rcases ih _ h with h2 | h2 | h2
          · exact Or.inl h2
          · exact Or.inr (Or.inl h2)
          · exact Or.inr (Or.inr ⟨List.mem_cons_of_mem _ h2.1, h2.2⟩)
        · rename_i hr
          rcases ih _ h with h2 | h2 | h2
          · rcases List.mem_cons.mp h2 with h3 | h3
            · exact Or.inr (Or.inl ⟨by simpa using hr, h3⟩)
            · exact Or.inl h3
          · exact Or.inr (Or.inl h2)
          · exact Or.inr (Or.inr ⟨List.mem_cons_of_mem _ h2.1, h2.2⟩)
    · rw [cleanElems_push r out e _ h1] at h
      rcases ih _ h with h2 | h2 | h2
      · rcases List.mem_cons.mp h2 with h3 | h3
        · exact Or.inr (Or.inr ⟨by rw [h3]; simp, h3 ▸ h1⟩)
        · exact Or.inl h3
      · exact Or.inr (Or.inl h2)
      · exact Or.inr (Or.inr ⟨List.mem_cons_of_mem _ h2.1, h2.2⟩)

/-- Cleaning under a root what a relative cleaning has produced is cleaning
the original elements under that root. -/
theorem cleanElems_reclean (out inn es : List GoString)
    (hinn : ∀ x ∈ inn, x ≠ [] ∧ x ≠ dot) :
    cleanElems true out (cleanElems false inn es) = cleanElems true out (inn.reverse ++ es) := by
  induction es generalizing inn with
  | nil => simp [cleanElems]
  | cons e es ih =>
    rcases elem_cases e with h | h | h
    · rw [cleanElems_skip false inn e _ h, ih inn hinn, cleanElems_append true out inn.reverse,
        cleanElems_append true out inn.reverse, cleanElems_skip true _ e _ h]
    · subst h
      rw [cleanElems_dotdot]
      cases inn with
      | nil =>
        simp only [canBacktrack, Bool.false_eq_true, if_false]
        rw [ih [dotdot] (by intro x hx; simp at hx; subst hx; decide)]
        rfl
      | cons top rest =>
        by_cases htop : top = dotdot
        · subst htop
          have hcb : canBacktrack (dotdot :: rest) = false := by simp [canBacktrack]
          simp only [hcb, Bool.false_eq_true, if_false]
          rw [ih (dotdot :: dotdot :: rest)
            (by
              intro x hx
              rcases List.mem_cons.mp hx with h1 | h1
              · subst h1; decide
              · exact hinn x h1)]
          simp
        · have hcb : canBacktrack (top :: rest) = true := by simp [canBacktrack, htop]
          have hnorm : isNormalElem top :=
            ⟨(hinn top (by simp)).1, (hinn top (by simp)).2, htop⟩
          simp only [hcb, if_true, List.tail_cons]
          rw [ih rest (fun x hx => hinn x (List.mem_cons_of_mem _ hx)),
            cleanElems_append true out rest.reverse,
            List.reverse_cons, List.append_assoc, cleanElems_append true out rest.reverse,
            List.singleton_append, cleanElems_push true _ top _ hnorm, cleanElems_dotdot]
          simp [canBacktrack, htop]
    · rw [cleanElems_push false inn e _ h,
        ih (e :: inn)
          (by
            intro x hx
            rcases List.mem_cons.mp hx with h1 | h1
            · subst h1; exact ⟨h.1, h.2.1⟩
            · exact hinn x h1)]
      simp

theorem intercalate_eq_nil (c : Nat) (ls : List GoString) (hne : ∀ l ∈ ls, l ≠ [])
    (h : [c].intercalate ls = []) : ls = [] := by
  cases ls with
  | nil => rfl
  | cons l rest =>
    cases rest with
    | nil =>
      rw [intercalate_singleton] at h
      exact absurd h (hne l (by simp))
    | cons l2 rest2 =>
      rw [intercalate_cons_cons] at h
      simp at h

/-- Splitting a joined element list and cleaning it is cleaning the list. -/
theorem cleanElems_split_intercalate (r : Bool) (out ls : List GoString)
    (h : ∀ l ∈ ls, slash ∉ l) :
    cleanElems r out (splitByte slash ([slash].intercalate ls)) = cleanElems r out ls := by
  cases ls with
  | nil =>
    have e : splitByte slash ([slash].intercalate ([] : List GoString)) = [[]] := by
      simp [List.intercalate, List.intersperse, splitByte]
    rw [e, cleanElems_skip r out [] [] (Or.inl rfl)]
  | cons l rest => rw [splitByte_intercalate slash (l :: rest) (by simp) h]

/-- The prefix of a joined list of elements is the join of fewer elements. -/
theorem intercalate_isPrefix (c : Nat) (as bs : List GoString) :
    [c].intercalate as <+: [c].intercalate (as ++ bs) := by
  induction as with
  | nil => exact List.nil_prefix
  | cons a rest ih =>
    cases rest with
    | nil =>
      cases bs with
      | nil => exact List.prefix_refl _
      | cons b bs2 =>
        rw [intercalate_singleton, List.singleton_append, intercalate_cons_cons]
        exact List.prefix_append _ _
    | cons a2 rest2 =>
      rw [List.cons_append, List.cons_append, intercalate_cons_cons, intercalate_cons_cons]
      rw [List.prefix_append_right_inj]
      rw [List.cons_append] at ih
      exact (List.prefix_cons_inj c).mpr ih

theorem isAbs_cons (x : Nat) (s : GoString) : isAbs (x :: s) = decide (x = slash) := by
  by_cases h : x = slash
  · subst h; simp [isAbs, startsWith, List.isPrefixOf]
  · have h2 : ¬ slash = x := fun e => h e.symm
    simp [isAbs, startsWith, List.isPrefixOf, h, h2]

theorem isAbs_nil : isAbs [] = false := rfl

theorem isAbs_append (a b : GoString) (ha : a ≠ []) : isAbs (a ++ b) = isAbs a := by
  cases a with
  | nil => exact absurd rfl ha
  | cons x a2 => rw [List.cons_append, isAbs_cons, isAbs_cons]

theorem clean_of_isAbs (s : GoString) (h : isAbs s = true) :
    clean s = slash :: [slash].intercalate (cleanElems true [] (splitByte slash s)) := by
  have hne : s ≠ [] := by
    intro e
    rw [e] at h
    exact Bool.false_ne_true h
  unfold clean
  rw [if_neg hne]
  simp only [h, if_true]

theorem clean_of_rel (s : GoString) (h : isAbs s = false) :
    clean s =
      if [slash].intercalate (cleanElems false [] (splitByte slash s)) = [] then dot
      else [slash].intercalate (cleanElems false [] (splitByte slash s)) := by
  by_cases hne : s = []
  · subst hne
    decide
  · unfold clean
    rw [if_neg hne]
    simp only [h, Bool.false_eq_true, if_false]

/-- The elements written by `filepath.Clean` are not empty, not `.` and hold
no separator. -/
theorem cleanElems_split_elems (r : Bool) (s x : GoString)
    (h : x ∈ cleanElems r [] (splitByte slash s)) : x ≠ [] ∧ x ≠ dot ∧ slash ∉ x := by
  rcases mem_cleanElems r [] _ x h with h1 | h1 | h1
  · simp at h1
  · rw [h1.2]; decide
  · exact ⟨h1.2.1, h1.2.2.1, not_mem_of_mem_splitByte slash s x h1.1⟩

theorem isAbs_intercalate (ls : List GoString) (h : ∀ l ∈ ls, l ≠ [] ∧ slash ∉ l) :
    isAbs ([slash].intercalate ls) = false := by
  cases ls with
  | nil => rfl
  | cons l rest =>
    obtain ⟨hl, hs⟩ := h l (by simp)
    cases l with
    | nil => exact absurd rfl hl
    | cons y l2 =>
      have hy : y ≠ slash := fun e => hs (by simp [e])
      cases rest with
      | nil => rw [intercalate_singleton, isAbs_cons]; simp [hy]
      | cons l3 rest2 =>
        rw [intercalate_cons_cons, List.cons_append, isAbs_cons]; simp [hy]

/-- Cleaning keeps a path absolute or relative. -/
theorem isAbs_clean (s : GoString) : isAbs (clean s) = isAbs s := by
  cases h : isAbs s with
  | true => rw [clean_of_isAbs s h, isAbs_cons]; simp
  | false =>
    rw [clean_of_rel s h]
    split
    · rfl
    · exact isAbs_intercalate _
        (fun l hl => ⟨(cleanElems_split_elems false s l hl).1,
          (cleanElems_split_elems false s l hl).2.2⟩)

/-- The elements of a cleaned relative path are cleaned like the path's own. -/
theorem cleanElems_split_clean_rel (r : Bool) (out : List GoString) (s : GoString)
    (h : isAbs s = false) :
    cleanElems r out (splitByte slash (clean s))
      = cleanElems r out (cleanElems false [] (splitByte slash s)) := by
  rw [clean_of_rel s h]
  split
  · rename_i hnil
    have hN := intercalate_eq_nil slash _
      (fun l hl => (cleanElems_split_elems false s l hl).1) hnil
    rw [hN]
    exact cleanElems_skip r out dot [] (Or.inr rfl)
  · exact cleanElems_split_intercalate r out _
      (fun l hl => (cleanElems_split_elems false s l hl).2.2)

/-- The elements of a cleaned absolute path are cleaned like the path's own. -/
theorem cleanElems_split_clean_abs (r : Bool) (out : List GoString) (s : GoString)
    (h : isAbs s = true) :
    cleanElems r out (splitByte slash (clean s))
      = cleanElems r out (cleanElems true [] (splitByte slash s)) := by
  rw [clean_of_isAbs s h, splitByte_cons_eq, cleanElems_skip r out [] _ (Or.inl rfl)]
  exact cleanElems_split_intercalate r out _
    (fun l hl => (cleanElems_split_elems true s l hl).2.2)

/-- Cleaning an absolute directory joined with a path. -/
theorem clean_join_abs (a b : GoString) (ha : isAbs a = true) :
    clean (a ++ slash :: b)
      = slash :: [slash].intercalate
          (cleanElems true (cleanElems true [] (splitByte slash a)).reverse
            (splitByte slash b)) := by
  have hne : a ≠ [] := by
    intro e
    rw [e] at ha
    exact Bool.false_ne_true ha
  rw [clean_of_isAbs _ (by rw [isAbs_append a _ hne]; exact ha), splitByte_append_sep,
    cleanElems_append]

/-- Under a stack `out`, the elements of the cleaned form of a relative path
without `..` are appended to the stack. -/
theorem cleanElems_split_clean_noDotDot (out : List GoString) (p : GoString)
    (hrel : isAbs p = false) (hp : noDotDot p) :
    cleanElems true out (splitByte slash (clean p))
      = out.reverse ++ (splitByte slash p).filter (fun e => decide (e ≠ [] ∧ e ≠ dot)) := by
  rw [cleanElems_split_clean_rel true out p hrel, cleanElems_noDotDot false [] _ hp,
    List.reverse_nil, List.nil_append, cleanElems_noDotDot true out _
      (fun hm => hp (List.mem_of_mem_filter hm)), List.filter_filter]
  simp

/-! ## Path sandbox without `..` -/

theorem sandboxRoot_ne_nil (envWorkDir : GoString) : sandboxRoot envWorkDir ≠ [] := by
  unfold sandboxRoot
  split
  · decide
  · assumption

theorem join_of_ne_nil (a b : GoString) (ha : a ≠ []) : join a b = clean (a ++ slash :: b) := by
  unfold join
  rw [if_pos ha]

theorem startsWith_nil (s : GoString) : startsWith s [] = true := by
  simp [startsWith, List.isPrefixOf]

theorem startsWith_slash_intercalate (as bs : List GoString) :
    startsWith (slash :: [slash].intercalate (as ++ bs)) (slash :: [slash].intercalate as)
      = true := by
  unfold startsWith
  rw [List.isPrefixOf_iff_prefix]
  exact (List.prefix_cons_inj slash).mpr (intercalate_isPrefix slash as bs)

/-- A rooted path made of normal elements is already clean. -/
theorem clean_rooted_normal (ls : List GoString)
    (h : ∀ l ∈ ls, isNormalElem l ∧ slash ∉ l) :
    clean (slash :: [slash].intercalate ls) = slash :: [slash].intercalate ls := by
  rw [clean_of_isAbs _ (by rw [isAbs_cons]; simp), splitByte_cons_eq,
    cleanElems_skip true [] [] _ (Or.inl rfl),
    cleanElems_split_intercalate true [] ls (fun l hl => (h l hl).2),
    cleanElems_noDotDot true [] ls (fun hm => (h dotdot hm).1.2.2 rfl),
    List.reverse_nil, List.nil_append, List.filter_eq_self.mpr]
  intro l hl
  simp [(h l hl).1.1, (h l hl).1.2.1]

theorem kept_elems_normal (p : GoString) (hp : noDotDot p) (l : GoString)
    (hl : l ∈ (splitByte slash p).filter (fun e => decide (e ≠ [] ∧ e ≠ dot))) :
    isNormalElem l ∧ slash ∉ l := by
  obtain ⟨hmem, hdec⟩ := List.mem_filter.mp hl
  have hd : l ≠ [] ∧ l ≠ dot := by simpa using hdec
  refine ⟨⟨hd.1, hd.2, ?_⟩, not_mem_of_mem_splitByte slash p l hmem⟩
  intro e
  exact hp (e ▸ hmem)

theorem rooted_elems_normal (out es : List GoString) (hout : ∀ x ∈ out, isNormalElem x ∧ slash ∉ x)
    (hes : ∀ x ∈ es, slash ∉ x) (l : GoString) (hl : l ∈ cleanElems true out es) :
    isNormalElem l ∧ slash ∉ l := by
  rcases mem_cleanElems true out es l hl with h1 | h1 | h1
  · exact hout l h1
  · exact absurd h1.1 (by simp)
  · exact ⟨h1.2, hes l h1.1⟩

/-- For a relative path without `..`, the absolute form of the resolved path
starts with the absolute form of the root. -/
theorem safePath_check_passes (envWorkDir : GoString) (cwd : Option GoString) (p : GoString)
    (hcwd : ∀ d, cwd = some d → isAbs d = true) (hrel : isAbs p = false) (hp : noDotDot p) :
    startsWith (absPath cwd (join (sandboxRoot envWorkDir) (clean p)))
      (absPath cwd (sandboxRoot envWorkDir)) = true := by
  have hwd := sandboxRoot_ne_nil envWorkDir
  generalize sandboxRoot envWorkDir = wd at hwd ⊢
  rw [join_of_ne_nil wd _ hwd]
  cases habs : isAbs wd with
  | true =>
    have hfull := clean_join_abs wd (clean p) habs
    rw [cleanElems_split_clean_noDotDot _ p hrel hp, List.reverse_reverse] at hfull
    have hnorm : ∀ l ∈ cleanElems true [] (splitByte slash wd) ++
        (splitByte slash p).filter (fun e => decide (e ≠ [] ∧ e ≠ dot)),
        isNormalElem l ∧ slash ∉ l := by
      intro l hl
      rcases List.mem_append.mp hl with h1 | h1
      · exact rooted_elems_normal [] _ (by simp)
          (fun x hx => not_mem_of_mem_splitByte slash wd x hx) l h1
      · exact kept_elems_normal p hp l h1
    have hfa : isAbs (clean (wd ++ slash :: clean p)) = true := by
      rw [hfull, isAbs_cons]; simp
    unfold absPath
    rw [if_pos hfa, if_pos habs, hfull, clean_rooted_normal _ hnorm, clean_of_isAbs wd habs]
    exact startsWith_slash_intercalate _ _
  | false =>
    have hxr : isAbs (wd ++ slash :: clean p) = false := by
      rw [isAbs_append wd _ hwd]; exact habs
    have hfr : isAbs (clean (wd ++ slash :: clean p)) = false := by
      rw [isAbs_clean]; exact hxr
    unfold absPath
    rw [if_neg (by rw [hfr]; simp), if_neg (by rw [habs]; simp)]
    cases cwd with
    | none => exact startsWith_nil _
    | some d =>
      have hd : isAbs d = true := hcwd d rfl
      have hdne : d ≠ [] := by
        intro e
        rw [e] at hd
        exact Bool.false_ne_true hd
      dsimp only
      rw [join_of_ne_nil d _ hdne, join_of_ne_nil d _ hdne, clean_join_abs d _ hd,
        clean_join_abs d wd hd, cleanElems_split_clean_rel true _ _ hxr,
        cleanElems_reclean _ [] _ (by simp), List.reverse_nil, List.nil_append,
        splitByte_append_sep, cleanElems_append,
        cleanElems_split_clean_noDotDot _ p hrel hp, List.reverse_reverse]
      exact startsWith_slash_intercalate _ _

/-- C11: for every work directory and every path without a `..` element
(the current directory, when `os.Getwd` returns one, being an absolute
path), `safePath` fails if and only if the path is absolute, then with the
error `absolute paths not allowed`; otherwise it returns the root joined
with the cleaned path. -/
theorem safePath_without_dotdot (envWorkDir : GoString) (cwd : Option GoString) (p : GoString)
    (hcwd : ∀ d, cwd = some d → isAbs d = true) (hp : noDotDot p) :
    ((∃ msg, safePath envWorkDir cwd p = .error msg) ↔ isAbs p = true) ∧
    (isAbs p = true →
      safePath envWorkDir cwd p = .error (ascii "absolute paths not allowed: " ++ p)) ∧
    (isAbs p = false →
      safePath envWorkDir cwd p = .ok (join (sandboxRoot envWorkDir) (clean p))) := by
  have habs : isAbs p = true →
      safePath envWorkDir cwd p = .error (ascii "absolute paths not allowed: " ++ p) := by
    intro h
    unfold safePath
    dsimp only
    rw [if_pos (by rw [isAbs_clean]; exact h)]
  have hrel : isAbs p = false →
      safePath envWorkDir cwd p = .ok (join (sandboxRoot envWorkDir) (clean p)) := by
    intro h
    have hchk := safePath_check_passes envWorkDir cwd p hcwd h hp
    unfold sandboxRoot at hchk ⊢
    unfold safePath
    dsimp only
    rw [if_neg (by rw [isAbs_clean, h]; simp), if_neg (by rw [hchk]; simp)]
  refine ⟨⟨?_, fun h => ⟨_, habs h⟩⟩, habs, hrel⟩
  rintro ⟨msg, hmsg⟩
  cases h : isAbs p with
  | true => rfl
  | false =>
    rw [hrel h] at hmsg
    cases hmsg

/-- C11 (witness): under the work directory `/srv/work`, the path `a/b.json`
resolves to `/srv/work/a/b.json` and the path `/abs/path` is refused. -/
theorem safePath_without_dotdot_witness :
    safePath (ascii "/srv/work") (some (ascii "/app")) (ascii "a/b.json")
      = .ok (join (sandboxRoot (ascii "/srv/work")) (clean (ascii "a/b.json"))) ∧
    join (sandboxRoot (ascii "/srv/work")) (clean (ascii "a/b.json"))
      = ascii "/srv/work/a/b.json" ∧
    safePath (ascii "/srv/work") (some (ascii "/app")) (ascii "/abs/path")
      = .error (ascii "absolute paths not allowed: /abs/path") ∧
    safePath (ascii "") none (ascii "a/b.json") = .ok (ascii "a/b.json") :=
  ⟨(safePath_without_dotdot (ascii "/srv/work") (some (ascii "/app")) (ascii "a/b.json")
      (fun d h => by cases h; decide) (by unfold noDotDot; decide)).2.2 (by decide),
   by decide,
   (safePath_without_dotdot (ascii "/srv/work") (some (ascii "/app")) (ascii "/abs/path")
      (fun d h => by cases h; decide) (by unfold noDotDot; decide)).2.1 (by decide),
   by decide⟩

end Cloudrift
